import Mathlib

/-!
# The Go-Back-N sender of `rft-client.cpp`

A shallow embedding of the send loop of `main` (lines 94-164 of
`src/rft-client.cpp`) and the properties of it that the specification states.

The headers `unreliableTransport.h` and `timerC.h` are not part of the sources
at hand. What the loop takes from them enters the model as follows.

* `nextSeq` is an `int` (line 98), taken to be 32 bits wide. Its values are
  integers between `-2^31` and `2^31 - 1`; `nextSeq++` (line 127) reduces its
  result to that range (`wrapInt`), which is what an increment past `INT_MAX`
  gives on two's complement hardware (the C++ standard leaves it undefined).
* `datagramS`: the five fields the loop reads and writes. Their C++ types are
  declared in the absent header; the specification calls them integers of a
  fixed-size header. The field `seqNum` is taken to hold every value of the
  `int` that line 110 stores into it, so the sequence numbers the sender hands
  out lie in the range of `int` (`seqNum_in_range`). What is received in
  `ackNum` is not constrained: the statements hold for every integer there, and
  so for the values of whatever type the field has.
* `MAX_PAYLOAD_LENGTH`, `computeChecksum`, `validateChecksum` and the value of
  a freshly declared `datagramS datagram;` are parameters (`Params`).
* `timerC` and `unreliableTransportC`: every call the loop makes on them
  (`udt_send`, `setDuration`, `start`, `stop`) is appended to a trace; what
  `udt_receive` and `timer.timeout()` return is an input of the environment
  (`Poll`), one per pass of the wait loop.
-/

namespace RftClient

/-! ## Data -/

/-- The packet type of `unreliableTransport.h`, with the fields used by `main`.
The header fields hold integers of fixed size. The only store the sender makes
into `seqNum` is of the `int` `nextSeq` (line 110), a value between `-2^31` and
`2^31 - 1`; `ackNum` is read from received datagrams only. -/
structure datagramS where
  seqNum : Int
  ackNum : Int
  payloadLength : Int
  checksum : Int
  data : List Nat
deriving DecidableEq

/-- The part of `std::ifstream` that `main` observes: the bytes not yet
extracted, the fail bit, and the count of the last unformatted read. -/
structure ifstream where
  rest : List Nat
  failbit : Bool
  gcount : Nat
deriving DecidableEq

/-- The unformatted read `read(buf, n)`: on a stream whose fail bit is set
nothing is extracted; otherwise up to `n` bytes are extracted, and running
into the end of the file before `n` bytes sets the fail bit. Returns the bytes
stored into the buffer and the stream afterwards. -/
def ifstream.read (f : ifstream) (n : Nat) : List Nat × ifstream :=
  if f.failbit then ([], { f with gcount := 0 })
  else if n ≤ f.rest.length then
    (f.rest.take n, { rest := f.rest.drop n, failbit := false, gcount := n })
  else (f.rest, { rest := [], failbit := true, gcount := f.rest.length })

/-- What the loop takes from the command line and from the absent headers. -/
structure Params where
  windowSize : Nat
  timeoutThreshold : Int
  MAX_PAYLOAD_LENGTH : Nat
  computeChecksum : datagramS → Int
  validateChecksum : datagramS → Bool
  /-- The value of `datagramS datagram;` right after its declaration (line 109). -/
  fresh : datagramS

/-- A call made on the transport or on the timer. -/
inductive Action where
  | udt_send (d : datagramS)
  | setDuration (ms : Int)
  | start
  | stop
deriving DecidableEq

/-- The variables of the send loop. `nextSeq` is the 32-bit `int` of line 98:
it starts at 1 and `fillBody` keeps it between `-2^31` and `2^31 - 1`. `trace`
lists the calls made so far on the transport and the timer, `enqueued` the
datagrams given to `push_back` so far (line 126); neither is read by the
loop. -/
structure Sender where
  window : List datagramS
  nextSeq : Int
  allSent : Bool
  allAcked : Bool
  inputFile : ifstream
  trace : List Action
  enqueued : List datagramS
deriving DecidableEq

/-- Control points of the loop: the test of the outer `while` (line 106), the
test of the fill `while` (line 108), the top of the `while (true)` (line 135),
and the code after the outer loop (line 166). -/
inductive Loc where
  | outerHead
  | fillHead
  | waitHead
  | done
deriving DecidableEq

/-- A control point together with the variables. -/
structure Machine where
  loc : Loc
  s : Sender
deriving DecidableEq

/-- What one pass of the wait loop observes: the datagram `udt_receive` stored
(`none` when it returned false) and the value of `timer.timeout()`. -/
structure Poll where
  recv : Option datagramS
  expired : Bool
deriving DecidableEq

/-! ## The fill phase (lines 108-128) -/

/-- The value a 32-bit `int` holds when arithmetic gives `x`: `x` itself
between `-2^31` and `2^31 - 1`, and `x` reduced modulo `2^32` into that range
otherwise. -/
def wrapInt (x : Int) : Int := (x + 2147483648) % 4294967296 - 2147483648

/-- The stream after the reads of one pass of the fill loop (lines 113-117):
the read of `MAX_PAYLOAD_LENGTH` bytes and, when that one failed having
extracted something, the second read of `gcount()` bytes. -/
def fileAfter (p : Params) (f : ifstream) : ifstream :=
  let f1 := (f.read p.MAX_PAYLOAD_LENGTH).2
  if f1.failbit && decide (0 < f1.gcount) then (f1.read f1.gcount).2 else f1

/-- Whether one pass of the fill loop takes the end-of-file branch
(lines 118-122): its read failed and extracted nothing. -/
def atEof (p : Params) (f : ifstream) : Bool :=
  let f1 := (f.read p.MAX_PAYLOAD_LENGTH).2
  f1.failbit && !decide (0 < f1.gcount)

/-- The datagram one pass of the fill loop builds (lines 109-124) for sequence
number `seq` from the stream `f`. -/
def buildDatagram (p : Params) (seq : Int) (f : ifstream) : datagramS :=
  let d0 : datagramS := { p.fresh with seqNum := seq }
  let r1 := f.read p.MAX_PAYLOAD_LENGTH
  let d1 : datagramS := { d0 with data := r1.1 ++ d0.data.drop r1.1.length }
  let d2 : datagramS :=
    if r1.2.failbit then
      if 0 < r1.2.gcount then
        let r2 := r1.2.read r1.2.gcount
        { d1 with payloadLength := r1.2.gcount,
                  data := r2.1 ++ d1.data.drop r2.1.length }
      else { d1 with payloadLength := 0 }
    else d1
  { d2 with checksum := p.computeChecksum d2 }

/-- One pass of the body of the fill loop (lines 109-127). The increment of
line 127 is that of a 32-bit `int`. -/
def fillBody (p : Params) (s : Sender) : Sender :=
  let d := buildDatagram p s.nextSeq s.inputFile
  { window := s.window ++ [d]
    nextSeq := wrapInt (s.nextSeq + 1)
    allSent := if atEof p s.inputFile then true else s.allSent
    allAcked := s.allAcked
    inputFile := fileAfter p s.inputFile
    trace := s.trace ++ [Action.udt_send d]
    enqueued := s.enqueued ++ [d] }

/-- The arm phase (lines 130-131). -/
def arm (p : Params) (s : Sender) : Sender :=
  { s with trace := s.trace ++ [Action.setDuration p.timeoutThreshold, Action.start] }

/-! ## The wait phase (lines 135-162) -/

/-- The pop loop (lines 140-142). -/
def popLoop (ackNum : Int) : List datagramS → List datagramS
  | [] => []
  | d :: w => if d.seqNum < ackNum then popLoop ackNum w else d :: w

/-- The branch taken on a datagram that was received and validates
(lines 139-148), up to the `break`. -/
def onAck (recvDatagram : datagramS) (s : Sender) : Sender :=
  let w := popLoop recvDatagram.ackNum s.window
  { s with window := w
           allAcked := if w.length ≤ 1 then true else s.allAcked
           trace := s.trace ++ [Action.stop] }

/-- The timer check (lines 153-161), `expired` being what `timer.timeout()`
returned. -/
def onTimer (p : Params) (expired : Bool) (s : Sender) : Sender :=
  if expired then
    { s with trace := s.trace ++ [Action.stop] ++ s.window.map Action.udt_send
                        ++ [Action.setDuration p.timeoutThreshold, Action.start] }
  else s

/-- One pass of the `while (true)` loop (lines 136-161). -/
def waitBody (p : Params) (poll : Poll) (s : Sender) : Machine :=
  match poll.recv with
  | some d =>
    if p.validateChecksum d then { loc := Loc.outerHead, s := onAck d s }
    else { loc := Loc.waitHead, s := onTimer p poll.expired s }
  | none => { loc := Loc.waitHead, s := onTimer p poll.expired s }

/-! ## The whole loop -/

/-- One step of the loop from a control point to the next one. Only the step
from `waitHead` looks at the poll. -/
def step (p : Params) (poll : Poll) (m : Machine) : Machine :=
  match m.loc with
  | Loc.outerHead =>
    if !m.s.allSent || !m.s.allAcked then { m with loc := Loc.fillHead }
    else { m with loc := Loc.done }
  | Loc.fillHead =>
    if decide (m.s.window.length < p.windowSize) && !m.s.allSent then
      { loc := Loc.fillHead, s := fillBody p m.s }
    else { loc := Loc.waitHead, s := arm p m.s }
  | Loc.waitHead => waitBody p poll m.s
  | Loc.done => m

/-- The state in which the outer loop is entered (lines 94-105) on a file
holding the bytes `file`. -/
def initial (file : List Nat) : Machine :=
  { loc := Loc.outerHead
    s := { window := [], nextSeq := 1, allSent := false, allAcked := false
           inputFile := { rest := file, failbit := false, gcount := 0 }
           trace := [], enqueued := [] } }

/-- The machine after `n` steps, the `i`-th step being given the poll `env i`. -/
def run (p : Params) (file : List Nat) (env : Nat → Poll) : Nat → Machine
  | 0 => initial file
  | n + 1 => step p (env n) (run p file env n)

/-- The states the loop can be in on the file `file`. -/
def Reachable (p : Params) (file : List Nat) (m : Machine) : Prop :=
  ∃ (env : Nat → Poll) (n : Nat), run p file env n = m

/-- A datagram with all header fields zero and no payload bytes. -/
def zeroDatagram : datagramS :=
  { seqNum := 0, ackNum := 0, payloadLength := 0, checksum := 0, data := [] }

/-- An acknowledgement carrying `a`. -/
def ackOf (a : Int) : datagramS := { zeroDatagram with ackNum := a }

/-- Parameters for the examples: window size `w`, payload capacity `cap`, a
checksum that is always 0, a validation that accepts exactly checksum 0, and
a declaration of `datagramS` that zeroes the header fields and the `cap` bytes
of the buffer. -/
def demo (w cap : Nat) : Params :=
  { windowSize := w, timeoutThreshold := 1000, MAX_PAYLOAD_LENGTH := cap
    computeChecksum := fun _ => 0
    validateChecksum := fun d => decide (d.checksum = 0)
    fresh := { zeroDatagram with data := List.replicate cap 0 } }

/-! ## Predicates used in the statements -/

/-- The sequence numbers handed out: `nextSeq` is one more than the number of
datagrams enqueued so far, and the datagram enqueued at position `i` (counted
from 0) carries `i + 1`, both as an `int` holds them. -/
def Numbered (s : Sender) : Prop :=
  s.nextSeq = wrapInt ((s.enqueued.length : Int) + 1)
  ∧ ∀ (i : Nat) (d : datagramS), s.enqueued[i]? = some d →
      d.seqNum = wrapInt ((i : Int) + 1)

/-- The stream of a file holding `file`, positioned at byte `off`. -/
def streamAt (file : List Nat) (off : Nat) : ifstream :=
  { rest := file.drop off, failbit := false, gcount := 0 }

/-- The datagram the fill body builds as its `i`-th one (counted from 0) when
every datagram before it took a full payload: `nextSeq` has been incremented
`i` times from 1 and so holds `wrapInt (i + 1)`, and the read is at byte
`i * MAX_PAYLOAD_LENGTH` of the file. -/
def nthDatagram (p : Params) (file : List Nat) (i : Nat) : datagramS :=
  buildDatagram p (wrapInt ((i : Int) + 1)) (streamAt file (i * p.MAX_PAYLOAD_LENGTH))

/-- The number of payloads a file of `len` bytes is cut into, `ceil (len / cap)`. -/
def chunkCount (len cap : Nat) : Nat := (len + cap - 1) / cap

/-- The data datagrams sent so far: all the datagrams enqueued, but for the
last one once `allSent` is set, which is the end-of-file datagram. -/
def dataSent (s : Sender) : List datagramS :=
  if s.allSent then s.enqueued.dropLast else s.enqueued

/-- An acknowledgement number that acknowledges every data datagram sent so
far: a cumulative acknowledgement `a` acknowledges the datagrams with
`seqNum < a`. -/
def acksAllData (s : Sender) (a : Int) : Prop :=
  ∀ d, d ∈ dataSent s → d.seqNum < a

/-- A channel behaviour under which every wait phase is ended by a valid
acknowledgement of all data sent so far: whenever the loop is at the top of
the wait loop, a datagram that validates is received at that pass or a later
one, and a datagram that validates at that pass acknowledges all data. -/
def FairChannel (p : Params) (file : List Nat) (env : Nat → Poll) : Prop :=
  ∀ t, (run p file env t).loc = Loc.waitHead →
    (∃ u d, t ≤ u ∧ (env u).recv = some d ∧ p.validateChecksum d = true)
    ∧ (∀ d, (env t).recv = some d → p.validateChecksum d = true →
        acksAllData (run p file env t).s d.ackNum)

/-- No datagram that validates is received at this pass of the wait loop. -/
def noValidDatagram (p : Params) (poll : Poll) : Prop :=
  ∀ d, poll.recv = some d → p.validateChecksum d = false

/-- The channel on which nothing arrives and the timer never expires. -/
def quiet : Nat → Poll := fun _ => { recv := none, expired := false }

/-- The channel that delivers the acknowledgement `a` at every pass. -/
def alwaysAck (a : Int) : Nat → Poll := fun _ => { recv := some (ackOf a), expired := false }

/-- A two-byte file sent with window size 3 and one byte per datagram, at the
start of the first wait phase: datagrams 1, 2 and 3 (end of file) are in the
window. -/
def waiting3 : Machine := run (demo 3 1) [7, 8] quiet 5

/-- An empty file sent with window size 1, at the start of its first wait
phase: the window holds the end-of-file datagram (sequence number 1) alone. -/
def waitingEof : Machine := run (demo 1 1) [] quiet 3

/-- What the fill phase has done to the file after enqueuing: the stream
stands at byte `enqueued.length * MAX_PAYLOAD_LENGTH` (or at the end of the
file, whichever comes first), a set fail bit means nothing is left, the
datagrams enqueued are `nthDatagram 0, 1, ...`, all of them before the end of
the file while `allSent` is false, and the last one of them the first at or
past the end of the file once `allSent` is true. -/
def FileInv (p : Params) (file : List Nat) (s : Sender) : Prop :=
  s.inputFile.rest = file.drop (s.enqueued.length * p.MAX_PAYLOAD_LENGTH)
  ∧ (s.inputFile.failbit = true → s.inputFile.rest = [])
  ∧ s.enqueued = (List.range s.enqueued.length).map (nthDatagram p file)
  ∧ (s.allSent = false →
      s.enqueued.length * p.MAX_PAYLOAD_LENGTH < file.length + p.MAX_PAYLOAD_LENGTH)
  ∧ (s.allSent = true → ∃ n, s.enqueued.length = n + 1
      ∧ file.length ≤ n * p.MAX_PAYLOAD_LENGTH
      ∧ n * p.MAX_PAYLOAD_LENGTH < file.length + p.MAX_PAYLOAD_LENGTH)

/-- What is left for the fill phase to do: nothing once `allSent` is set, and
otherwise the bytes left in the file plus the end-of-file datagram. -/
def remaining (s : Sender) : Nat :=
  if s.allSent then 0 else s.inputFile.rest.length + 1

/-- Whether the timer is running after the calls in a trace, given whether it
was running before them: `start` sets it running, `stop` ends that, the other
calls leave it. -/
def runningAfter (r : Bool) : List Action → Bool
  | [] => r
  | Action.start :: t => runningAfter true t
  | Action.stop :: t => runningAfter false t
  | Action.udt_send _ :: t => runningAfter r t
  | Action.setDuration _ :: t => runningAfter r t

/-- Every `start` in the trace is called on a timer that is not running, given
whether the timer was running before the trace. -/
def wellTimed (r : Bool) : List Action → Prop
  | [] => True
  | Action.start :: t => r = false ∧ wellTimed true t
  | Action.stop :: t => wellTimed false t
  | Action.udt_send _ :: t => wellTimed r t
  | Action.setDuration _ :: t => wellTimed r t

/-- The loop is at the outer test with an empty window, `e` datagrams
enqueued so far, all of them full-size data datagrams, and the file read up to
byte `e * MAX_PAYLOAD_LENGTH`. -/
def AtRoundStart (p : Params) (file : List Nat) (m : Machine) (e : Nat) : Prop :=
  m.loc = Loc.outerHead ∧ m.s.allSent = false ∧ m.s.window = []
  ∧ m.s.inputFile.failbit = false ∧ m.s.enqueued.length = e
  ∧ m.s.inputFile.rest = file.drop (e * p.MAX_PAYLOAD_LENGTH)

/-- The channel of a receiver that gets every datagram, for window size 10 and
a file that does not end: a round of the loop takes 13 steps (the outer test,
ten passes of the fill body, the arm phase, one pass of the wait loop), and
the pass of the wait loop of round `r` (counted from 0) receives the cumulative
acknowledgement `10 * r + 11` of the datagrams `1, ..., 10 * r + 10`. -/
def cumulativeAcks : Nat → Poll :=
  fun t => { recv := some (ackOf ((10 * (t / 13) + 11 : Nat) : Int)), expired := false }

/-! ## Lemmas on `int` arithmetic -/

theorem wrapInt_of_range (x : Int) (h1 : -2147483648 ≤ x) (h2 : x ≤ 2147483647) :
    wrapInt x = x := by
  unfold wrapInt; omega

theorem wrapInt_range (x : Int) : -2147483648 ≤ wrapInt x ∧ wrapInt x ≤ 2147483647 := by
  unfold wrapInt; omega

theorem wrapInt_succ (x : Int) : wrapInt (wrapInt x + 1) = wrapInt (x + 1) := by
  unfold wrapInt; omega

/-! ## Lemmas on the pop loop -/

theorem popLoop_isSuffix (a : Int) (w : List datagramS) : popLoop a w <:+ w := by
  induction w with
  | nil => exact List.suffix_refl _
  | cons d w ih =>
    unfold popLoop
    split
    · exact ih.trans (List.suffix_cons d w)
    · exact List.suffix_refl _

theorem popLoop_length_le (a : Int) (w : List datagramS) :
    (popLoop a w).length ≤ w.length :=
  (popLoop_isSuffix a w).length_le

theorem popLoop_eq_filter (a : Int) (w : List datagramS)
    (hinc : w.Pairwise (fun x y => x.seqNum < y.seqNum)) :
    popLoop a w = w.filter (fun d => decide (a ≤ d.seqNum)) := by
  induction w with
  | nil => rfl
  | cons d w ih =>
    rw [List.pairwise_cons] at hinc
    unfold popLoop
    split
    · next hlt =>
      rw [ih hinc.2, List.filter_cons_of_neg]
      simpa using hlt
    · next hge =>
      symm
      rw [List.filter_eq_self]
      intro x hx
      rw [List.mem_cons] at hx
      rcases hx with rfl | hx
      · simpa using hge
      · have := hinc.1 x hx
        simp only [decide_eq_true_eq]
        omega

theorem popLoop_of_head_ge (a : Int) (d : datagramS) (w : List datagramS)
    (h : a ≤ d.seqNum) : popLoop a (d :: w) = d :: w := by
  unfold popLoop
  rw [if_neg (by omega)]

theorem popLoop_eq_nil_of_lt (a : Int) (w : List datagramS)
    (h : ∀ d, d ∈ w → d.seqNum < a) : popLoop a w = [] := by
  induction w with
  | nil => rfl
  | cons x w ih =>
    unfold popLoop
    rw [if_pos (h x (List.mem_cons_self x w))]
    exact ih (fun d hd => h d (List.mem_cons_of_mem x hd))

theorem popLoop_append_of_lt (a : Int) (pre w : List datagramS)
    (h : ∀ d, d ∈ pre → d.seqNum < a) : popLoop a (pre ++ w) = popLoop a w := by
  induction pre with
  | nil => rfl
  | cons x pre ih =>
    rw [List.cons_append, popLoop, if_pos (h x (List.mem_cons_self x pre))]
    exact ih (fun d hd => h d (List.mem_cons_of_mem x hd))

/-! ## Reachable states and invariants -/

theorem run_congr (p : Params) (file : List Nat) (e1 e2 : Nat → Poll) (n : Nat)
    (h : ∀ i, i < n → e1 i = e2 i) : run p file e1 n = run p file e2 n := by
  induction n with
  | zero => rfl
  | succ n ih =>
    simp only [run]
    rw [ih (fun i hi => h i (Nat.lt_succ_of_lt hi)), h n (Nat.lt_succ_self n)]

theorem reachable_initial (p : Params) (file : List Nat) :
    Reachable p file (initial file) :=
  ⟨fun _ => { recv := none, expired := false }, 0, rfl⟩

theorem reachable_step (p : Params) (file : List Nat) (m : Machine) (poll : Poll)
    (h : Reachable p file m) : Reachable p file (step p poll m) := by
  obtain ⟨env, n, rfl⟩ := h
  refine ⟨fun i => if i = n then poll else env i, n + 1, ?_⟩
  simp only [run, if_true]
  rw [run_congr p file (fun i => if i = n then poll else env i) env n]
  intro i hi
  simp [Nat.ne_of_lt hi]

theorem reachable_run (p : Params) (file : List Nat) (env : Nat → Poll) (n : Nat) :
    Reachable p file (run p file env n) := ⟨env, n, rfl⟩

/-- Induction over the reachable states. -/
theorem reachable_induction (p : Params) (file : List Nat) (Q : Machine → Prop)
    (h0 : Q (initial file))
    (hs : ∀ m poll, Reachable p file m → Q m → Q (step p poll m)) :
    ∀ m, Reachable p file m → Q m := by
  rintro m ⟨env, n, rfl⟩
  induction n with
  | zero => exact h0
  | succ n ih => exact hs _ _ ⟨env, n, rfl⟩ ih

/-- What a step does to the variables: nothing, one pass of the fill body
(under the guard of the fill loop), the arm phase, the branch of a valid
datagram, or the timer check. -/
theorem step_sender_cases (p : Params) (poll : Poll) (m : Machine) :
    (step p poll m).s = m.s
    ∨ (m.s.window.length < p.windowSize ∧ m.s.allSent = false
        ∧ (step p poll m).s = fillBody p m.s)
    ∨ (step p poll m).s = arm p m.s
    ∨ (∃ d, p.validateChecksum d = true ∧ (step p poll m).s = onAck d m.s)
    ∨ (step p poll m).s = onTimer p poll.expired m.s := by
  obtain ⟨loc, s⟩ := m
  cases loc with
  | outerHead =>
    left
    simp only [step]
    split <;> rfl
  | fillHead =>
    simp only [step]
    split
    · next h =>
      right; left
      simp only [Bool.and_eq_true, decide_eq_true_eq, Bool.not_eq_true_eq_eq_false] at h
      exact ⟨h.1, by simpa using h.2, rfl⟩
    · right; right; left; rfl
  | waitHead =>
    simp only [step, waitBody]
    split
    · next d hd =>
      split
      · next hv => right; right; right; left; exact ⟨d, hv, rfl⟩
      · right; right; right; right; rfl
    · right; right; right; right; rfl
  | done => left; rfl

/-- An invariant of the variables: it holds on entry and every piece of the
loop body keeps it. -/
theorem sender_invariant (p : Params) (file : List Nat) (Q : Sender → Prop)
    (h0 : Q (initial file).s)
    (hfill : ∀ s, Q s → s.window.length < p.windowSize → s.allSent = false →
      Q (fillBody p s))
    (harm : ∀ s, Q s → Q (arm p s))
    (hack : ∀ d s, Q s → p.validateChecksum d = true → Q (onAck d s))
    (htimer : ∀ e s, Q s → Q (onTimer p e s)) :
    ∀ m, Reachable p file m → Q m.s := by
  apply reachable_induction p file (fun m => Q m.s) h0
  intro m poll _ hm
  rcases step_sender_cases p poll m with h | ⟨h1, h2, h⟩ | h | ⟨d, hd, h⟩ | h
  · rw [h]; exact hm
  · rw [h]; exact hfill _ hm h1 h2
  · rw [h]; exact harm _ hm
  · rw [h]; exact hack d _ hm hd
  · rw [h]; exact htimer _ _ hm

theorem onTimer_window (p : Params) (e : Bool) (s : Sender) :
    (onTimer p e s).window = s.window := by
  unfold onTimer; split <;> rfl

theorem onTimer_nextSeq (p : Params) (e : Bool) (s : Sender) :
    (onTimer p e s).nextSeq = s.nextSeq := by
  unfold onTimer; split <;> rfl

theorem onTimer_allSent (p : Params) (e : Bool) (s : Sender) :
    (onTimer p e s).allSent = s.allSent := by
  unfold onTimer; split <;> rfl

theorem onTimer_allAcked (p : Params) (e : Bool) (s : Sender) :
    (onTimer p e s).allAcked = s.allAcked := by
  unfold onTimer; split <;> rfl

theorem onTimer_enqueued (p : Params) (e : Bool) (s : Sender) :
    (onTimer p e s).enqueued = s.enqueued := by
  unfold onTimer; split <;> rfl

theorem onTimer_inputFile (p : Params) (e : Bool) (s : Sender) :
    (onTimer p e s).inputFile = s.inputFile := by
  unfold onTimer; split <;> rfl

theorem buildDatagram_seqNum (p : Params) (seq : Int) (f : ifstream) :
    (buildDatagram p seq f).seqNum = seq := by
  unfold buildDatagram
  simp only
  split
  · split <;> rfl
  · rfl

/-- The window never holds more than `windowSize` datagrams. -/
theorem window_length_le (p : Params) (file : List Nat) (m : Machine)
    (h : Reachable p file m) : m.s.window.length ≤ p.windowSize := by
  refine sender_invariant p file (fun s => s.window.length ≤ p.windowSize)
    (Nat.zero_le _) ?_ (fun s hs => hs) ?_ ?_ m h
  · intro s _ hlt _
    simp only [fillBody, List.length_append, List.length_singleton]
    omega
  · intro d s hs _
    exact Nat.le_trans (popLoop_length_le _ _) hs
  · intro e s hs
    rw [onTimer_window]; exact hs

theorem numbered_fillBody (p : Params) (s : Sender) (hs : Numbered s) :
    Numbered (fillBody p s) := by
  refine ⟨?_, ?_⟩
  · simp only [fillBody, List.length_append, List.length_singleton, hs.1]
    rw [wrapInt_succ]
    push_cast; rfl
  · intro i d hd
    simp only [fillBody] at hd
    rcases Nat.lt_or_ge i s.enqueued.length with hi | hi
    · rw [List.getElem?_append_left hi] at hd
      exact hs.2 i d hd
    · rw [List.getElem?_append_right hi] at hd
      have hi0 : i - s.enqueued.length = 0 := by
        by_contra hne
        have : 1 ≤ i - s.enqueued.length := Nat.one_le_iff_ne_zero.mpr hne
        rw [List.getElem?_eq_none (by simpa using this)] at hd
        exact Option.noConfusion hd
      rw [hi0] at hd
      simp only [List.getElem?_cons_zero, Option.some.injEq] at hd
      rw [← hd, buildDatagram_seqNum, hs.1]
      have : i = s.enqueued.length := by omega
      rw [this]

theorem numbered_of_reachable (p : Params) (file : List Nat) (m : Machine)
    (h : Reachable p file m) : Numbered m.s := by
  refine sender_invariant p file Numbered ?_ ?_ (fun s hs => hs) (fun d s hs _ => hs) ?_ m h
  · refine ⟨?_, ?_⟩
    · simp only [initial, List.length_nil]
      unfold wrapInt; omega
    · intro i d hd
      simp [initial] at hd
  · intro s hs _ _
    exact numbered_fillBody p s hs
  · intro e s hs
    unfold Numbered
    rw [onTimer_nextSeq, onTimer_enqueued]; exact hs

theorem window_suffix_enqueued (p : Params) (file : List Nat) (m : Machine)
    (h : Reachable p file m) : m.s.window <:+ m.s.enqueued := by
  refine sender_invariant p file (fun s => s.window <:+ s.enqueued)
    (List.suffix_refl _) ?_ (fun s hs => hs) ?_ ?_ m h
  · intro s hs _ _
    obtain ⟨t, ht⟩ := hs
    refine ⟨t, ?_⟩
    simp only [fillBody]
    rw [← List.append_assoc, ht]
  · intro d s hs _
    exact (popLoop_isSuffix _ _).trans hs
  · intro e s hs
    rw [onTimer_window, onTimer_enqueued]; exact hs

/-- In a reachable state the `i`-th entry of the window is the datagram
enqueued at position `enqueued.length - window.length + i`, and carries that
position plus one as an `int` holds it. -/
theorem window_seqNum (p : Params) (file : List Nat) (m : Machine)
    (h : Reachable p file m) (i : Nat) (d : datagramS)
    (hd : m.s.window[i]? = some d) :
    d.seqNum = wrapInt (((m.s.enqueued.length - m.s.window.length + i : Nat) : Int) + 1)
    ∧ m.s.enqueued[m.s.enqueued.length - m.s.window.length + i]? = some d
    ∧ i < m.s.window.length ∧ m.s.window.length ≤ m.s.enqueued.length := by
  have hsuf := window_suffix_enqueued p file m h
  have hnum := numbered_of_reachable p file m h
  have hlen := hsuf.length_le
  have hi : i < m.s.window.length := by
    by_contra hge
    rw [List.getElem?_eq_none (by omega)] at hd
    exact Option.noConfusion hd
  have hw := List.suffix_iff_eq_drop.mp hsuf
  have he : m.s.enqueued[m.s.enqueued.length - m.s.window.length + i]? = some d := by
    rw [← List.getElem?_drop, ← hw]; exact hd
  exact ⟨hnum.2 _ d he, he, hi, hlen⟩

/-- The sequence numbers the sender hands out are values of an `int`. -/
theorem seqNum_in_range (p : Params) (file : List Nat) (m : Machine)
    (h : Reachable p file m) :
    (-2147483648 ≤ m.s.nextSeq ∧ m.s.nextSeq ≤ 2147483647)
    ∧ (∀ d, d ∈ m.s.enqueued → -2147483648 ≤ d.seqNum ∧ d.seqNum ≤ 2147483647)
    ∧ (∀ d, d ∈ m.s.window → -2147483648 ≤ d.seqNum ∧ d.seqNum ≤ 2147483647) := by
  have hnum := numbered_of_reachable p file m h
  have henq : ∀ d, d ∈ m.s.enqueued → -2147483648 ≤ d.seqNum ∧ d.seqNum ≤ 2147483647 := by
    intro d hd
    obtain ⟨i, hi⟩ := List.mem_iff_getElem?.mp hd
    rw [hnum.2 i d hi]
    exact wrapInt_range _
  refine ⟨?_, henq, ?_⟩
  · rw [hnum.1]; exact wrapInt_range _
  · intro d hd
    exact henq d ((window_suffix_enqueued p file m h).subset hd)

theorem enqueued_sent (p : Params) (file : List Nat) (m : Machine)
    (h : Reachable p file m) :
    ∀ d, d ∈ m.s.enqueued → Action.udt_send d ∈ m.s.trace := by
  refine sender_invariant p file
    (fun s => ∀ d, d ∈ s.enqueued → Action.udt_send d ∈ s.trace) ?_ ?_ ?_ ?_ ?_ m h
  · intro d hd
    simp [initial] at hd
  · intro s hs _ _ d hd
    simp only [fillBody, List.mem_append, List.mem_singleton] at hd ⊢
    rcases hd with hd | hd
    · exact Or.inl (hs d hd)
    · exact Or.inr (by rw [hd])
  · intro s hs d hd
    simp only [arm, List.mem_append]
    exact Or.inl (hs d hd)
  · intro a s hs _ d hd
    simp only [onAck, List.mem_append]
    exact Or.inl (hs d hd)
  · intro e s hs d hd
    rw [onTimer_enqueued] at hd
    unfold onTimer
    split
    · simp only [List.mem_append]
      exact Or.inl (Or.inl (Or.inl (hs d hd)))
    · exact hs d hd

theorem waitBody_of_noValid (p : Params) (poll : Poll) (s : Sender)
    (h : noValidDatagram p poll) :
    waitBody p poll s = { loc := Loc.waitHead, s := onTimer p poll.expired s } := by
  unfold waitBody
  split
  · next d hd => rw [h d hd]; rfl
  · rfl

theorem waitBody_of_valid (p : Params) (poll : Poll) (s : Sender) (d : datagramS)
    (hrecv : poll.recv = some d) (hvalid : p.validateChecksum d = true) :
    waitBody p poll s = { loc := Loc.outerHead, s := onAck d s } := by
  unfold waitBody
  rw [hrecv]
  simp only [hvalid, if_true]

/-! ## Lemmas on the reads of the fill phase -/

theorem read_of_fail (rest : List Nat) (g n : Nat) :
    ifstream.read { rest := rest, failbit := true, gcount := g } n
      = ([], { rest := rest, failbit := true, gcount := 0 }) := rfl

theorem read_of_full (rest : List Nat) (g n : Nat) (h : n ≤ rest.length) :
    ifstream.read { rest := rest, failbit := false, gcount := g } n
      = (rest.take n, { rest := rest.drop n, failbit := false, gcount := n }) := by
  simp [ifstream.read, h]

theorem read_of_short (rest : List Nat) (g n : Nat) (h : rest.length < n) :
    ifstream.read { rest := rest, failbit := false, gcount := g } n
      = (rest, { rest := [], failbit := true, gcount := rest.length }) := by
  have : ¬ n ≤ rest.length := by omega
  simp [ifstream.read, this]

/-- A read of at least one byte sees a stream only through the bytes left,
provided a set fail bit means that nothing is left. -/
theorem read_normalize (f : ifstream) (n : Nat) (hn : 0 < n)
    (hf : f.failbit = true → f.rest = []) :
    f.read n = (streamAt f.rest 0).read n := by
  obtain ⟨rest, failbit, gcount⟩ := f
  cases failbit with
  | true =>
    have hr : rest = [] := hf rfl
    subst hr
    rw [read_of_fail]
    simp only [streamAt, List.drop_zero]
    rw [read_of_short [] 0 n (by simpa using hn)]
    rfl
  | false =>
    simp only [streamAt, List.drop_zero]
    by_cases h : n ≤ rest.length
    · rw [read_of_full _ _ _ h, read_of_full _ _ _ h]
    · rw [read_of_short _ _ _ (by omega), read_of_short _ _ _ (by omega)]

theorem buildDatagram_normalize (p : Params) (seq : Int) (f : ifstream)
    (hP : 0 < p.MAX_PAYLOAD_LENGTH) (hf : f.failbit = true → f.rest = []) :
    buildDatagram p seq f = buildDatagram p seq (streamAt f.rest 0) := by
  unfold buildDatagram
  rw [read_normalize f _ hP hf]

theorem atEof_normalize (p : Params) (f : ifstream)
    (hP : 0 < p.MAX_PAYLOAD_LENGTH) (hf : f.failbit = true → f.rest = []) :
    atEof p f = atEof p (streamAt f.rest 0) := by
  unfold atEof
  rw [read_normalize f _ hP hf]

theorem fileAfter_normalize (p : Params) (f : ifstream)
    (hP : 0 < p.MAX_PAYLOAD_LENGTH) (hf : f.failbit = true → f.rest = []) :
    fileAfter p f = fileAfter p (streamAt f.rest 0) := by
  unfold fileAfter
  rw [read_normalize f _ hP hf]

theorem fileAfter_full (p : Params) (rest : List Nat) (g : Nat)
    (h : p.MAX_PAYLOAD_LENGTH ≤ rest.length) :
    fileAfter p { rest := rest, failbit := false, gcount := g }
      = { rest := rest.drop p.MAX_PAYLOAD_LENGTH, failbit := false,
          gcount := p.MAX_PAYLOAD_LENGTH } := by
  simp only [fileAfter]
  rw [read_of_full _ _ _ h]
  rfl

theorem fileAfter_short (p : Params) (rest : List Nat) (g : Nat)
    (h : rest.length < p.MAX_PAYLOAD_LENGTH) :
    fileAfter p { rest := rest, failbit := false, gcount := g }
      = { rest := [], failbit := true, gcount := 0 } := by
  simp only [fileAfter]
  rw [read_of_short _ _ _ h]
  by_cases h0 : 0 < rest.length
  · simp only [Bool.true_and, decide_eq_true_eq, h0, if_true]
    rw [read_of_fail]
  · have : rest.length = 0 := by omega
    simp [this]

theorem atEof_full (p : Params) (rest : List Nat) (g : Nat)
    (h : p.MAX_PAYLOAD_LENGTH ≤ rest.length) :
    atEof p { rest := rest, failbit := false, gcount := g } = false := by
  simp only [atEof]
  rw [read_of_full _ _ _ h]
  rfl

theorem atEof_short (p : Params) (rest : List Nat) (g : Nat)
    (h : rest.length < p.MAX_PAYLOAD_LENGTH) :
    atEof p { rest := rest, failbit := false, gcount := g } = decide (rest.length = 0) := by
  simp only [atEof]
  rw [read_of_short _ _ _ h]
  by_cases h0 : 0 < rest.length
  · have : rest.length ≠ 0 := by omega
    simp [h0, this]
  · have : rest.length = 0 := by omega
    simp [this]

/-- On a full-size chunk the body leaves `payloadLength` as the declaration of
the datagram left it. -/
theorem buildDatagram_full (p : Params) (seq : Int) (rest : List Nat) (g : Nat)
    (h : p.MAX_PAYLOAD_LENGTH ≤ rest.length) :
    (buildDatagram p seq { rest := rest, failbit := false, gcount := g }).payloadLength
        = p.fresh.payloadLength
    ∧ (buildDatagram p seq { rest := rest, failbit := false, gcount := g }).data
        = rest.take p.MAX_PAYLOAD_LENGTH
          ++ p.fresh.data.drop (rest.take p.MAX_PAYLOAD_LENGTH).length := by
  simp only [buildDatagram]
  rw [read_of_full _ _ _ h]
  exact ⟨rfl, rfl⟩

/-- On a short read of `n` bytes the body sets `payloadLength` to `n`; this is
0 exactly on the end-of-file branch. -/
theorem buildDatagram_short (p : Params) (seq : Int) (rest : List Nat) (g : Nat)
    (h : rest.length < p.MAX_PAYLOAD_LENGTH) :
    (buildDatagram p seq { rest := rest, failbit := false, gcount := g }).payloadLength
        = (rest.length : Int)
    ∧ (buildDatagram p seq { rest := rest, failbit := false, gcount := g }).data
        = rest ++ p.fresh.data.drop rest.length := by
  simp only [buildDatagram]
  rw [read_of_short _ _ _ h]
  by_cases h0 : 0 < rest.length
  · simp only [if_true, h0]
    rw [read_of_fail]
    simp
  · have : rest.length = 0 := by omega
    simp [this]

/-- The fill body takes the end-of-file branch exactly when the stream stands
at or past the end of the file. -/
theorem atEof_streamAt (p : Params) (file : List Nat) (off : Nat)
    (hP : 0 < p.MAX_PAYLOAD_LENGTH) :
    atEof p (streamAt file off) = decide (file.length ≤ off) := by
  simp only [streamAt]
  by_cases h : p.MAX_PAYLOAD_LENGTH ≤ (file.drop off).length
  · rw [atEof_full p _ _ h]
    rw [List.length_drop] at h
    have : ¬ file.length ≤ off := by omega
    simp [this]
  · rw [atEof_short p _ _ (by omega), List.length_drop]
    by_cases h2 : file.length ≤ off
    · have : file.length - off = 0 := by omega
      simp [h2, this]
    · have : file.length - off ≠ 0 := by omega
      simp [h2, this]

theorem fileAfter_streamAt_rest (p : Params) (file : List Nat) (off : Nat) :
    (fileAfter p (streamAt file off)).rest = file.drop (off + p.MAX_PAYLOAD_LENGTH) := by
  simp only [streamAt]
  by_cases h : p.MAX_PAYLOAD_LENGTH ≤ (file.drop off).length
  · rw [fileAfter_full p _ _ h]
    simp [List.drop_drop, Nat.add_comm]
  · rw [fileAfter_short p _ _ (by omega)]
    rw [List.length_drop] at h
    exact (List.drop_eq_nil_of_le (by omega)).symm

theorem fileAfter_streamAt_failbit (p : Params) (file : List Nat) (off : Nat) :
    (fileAfter p (streamAt file off)).failbit = true →
      (fileAfter p (streamAt file off)).rest = [] := by
  simp only [streamAt]
  by_cases h : p.MAX_PAYLOAD_LENGTH ≤ (file.drop off).length
  · rw [fileAfter_full p _ _ h]
    intro hf
    simp at hf
  · rw [fileAfter_short p _ _ (by omega)]
    intro _; rfl

/-- The datagram built at or past the end of the file has `payloadLength = 0`. -/
theorem nthDatagram_payloadLength_eof (p : Params) (file : List Nat) (n : Nat)
    (hP : 0 < p.MAX_PAYLOAD_LENGTH) (hn : file.length ≤ n * p.MAX_PAYLOAD_LENGTH) :
    (nthDatagram p file n).payloadLength = 0 := by
  have hlen : (file.drop (n * p.MAX_PAYLOAD_LENGTH)).length = 0 := by
    rw [List.length_drop]; omega
  simp only [nthDatagram, streamAt]
  rw [(buildDatagram_short p _ _ 0 (by omega)).1, hlen]
  rfl

/-- The buffer of a built datagram starts with the bytes read for it. -/
theorem nthDatagram_data (p : Params) (file : List Nat) (i : Nat) :
    (nthDatagram p file i).data
      = (file.drop (i * p.MAX_PAYLOAD_LENGTH)).take p.MAX_PAYLOAD_LENGTH
        ++ p.fresh.data.drop
            ((file.drop (i * p.MAX_PAYLOAD_LENGTH)).take p.MAX_PAYLOAD_LENGTH).length := by
  simp only [nthDatagram, streamAt]
  by_cases h : p.MAX_PAYLOAD_LENGTH ≤ (file.drop (i * p.MAX_PAYLOAD_LENGTH)).length
  · exact (buildDatagram_full p _ _ 0 h).2
  · have htake : (file.drop (i * p.MAX_PAYLOAD_LENGTH)).take p.MAX_PAYLOAD_LENGTH
        = file.drop (i * p.MAX_PAYLOAD_LENGTH) :=
      List.take_of_length_le (by omega)
    rw [htake]
    exact (buildDatagram_short p _ _ 0 (by omega)).2

theorem nthDatagram_seqNum (p : Params) (file : List Nat) (i : Nat) :
    (nthDatagram p file i).seqNum = wrapInt ((i : Int) + 1) :=
  buildDatagram_seqNum p _ _

theorem fileInv_of_reachable (p : Params) (file : List Nat) (m : Machine)
    (hP : 0 < p.MAX_PAYLOAD_LENGTH) (h : Reachable p file m) : FileInv p file m.s := by
  have hnum : ∀ m, Reachable p file m → Numbered m.s ∧ FileInv p file m.s := by
    refine sender_invariant p file (fun s => Numbered s ∧ FileInv p file s)
      ?_ ?_ (fun s hs => hs) (fun d s hs _ => hs) ?_
    · refine ⟨⟨?_, ?_⟩, ?_⟩
      · simp only [initial, List.length_nil]
        unfold wrapInt; omega
      · intro i d hd
        simp [initial] at hd
      · refine ⟨by simp [initial], by simp [initial], by simp [initial], ?_, by simp [initial]⟩
        intro _
        simp only [initial, List.length_nil, Nat.zero_mul]
        omega
    · rintro s ⟨hN, hrest, hfail, henq, hdata, hsent⟩ _ hns
      have hN2 : Numbered (fillBody p s) := numbered_fillBody p s hN
      refine ⟨hN2, ?_⟩
      have hnorm : streamAt s.inputFile.rest 0
          = streamAt file (s.enqueued.length * p.MAX_PAYLOAD_LENGTH) := by
        rw [hrest]; simp [streamAt]
      have hbuild : buildDatagram p s.nextSeq s.inputFile
          = nthDatagram p file s.enqueued.length := by
        rw [buildDatagram_normalize p _ _ hP hfail, hnorm, hN.1]; rfl
      have heof : atEof p s.inputFile
          = decide (file.length ≤ s.enqueued.length * p.MAX_PAYLOAD_LENGTH) := by
        rw [atEof_normalize p _ hP hfail, hnorm, atEof_streamAt p _ _ hP]
      have hafter : fileAfter p s.inputFile
          = fileAfter p (streamAt file (s.enqueued.length * p.MAX_PAYLOAD_LENGTH)) := by
        rw [fileAfter_normalize p _ hP hfail, hnorm]
      have hd0 := hdata hns
      refine ⟨?_, ?_, ?_, ?_, ?_⟩
      · simp only [fillBody, List.length_append, List.length_singleton]
        rw [hafter, fileAfter_streamAt_rest, Nat.add_mul, Nat.one_mul]
      · simp only [fillBody]
        rw [hafter]
        exact fileAfter_streamAt_failbit p file _
      · simp only [fillBody, List.length_append, List.length_singleton]
        rw [List.range_succ, List.map_append, ← henq, hbuild]
        rfl
      · simp only [fillBody, List.length_append, List.length_singleton, heof, hns]
        intro hf
        by_cases hle : file.length ≤ s.enqueued.length * p.MAX_PAYLOAD_LENGTH
        · simp [hle] at hf
        · rw [Nat.add_mul, Nat.one_mul]
          omega
      · simp only [fillBody, List.length_append, List.length_singleton, heof, hns]
        intro hf
        by_cases hle : file.length ≤ s.enqueued.length * p.MAX_PAYLOAD_LENGTH
        · exact ⟨s.enqueued.length, rfl, hle, hd0⟩
        · simp [hle] at hf
    · intro e s hs
      unfold Numbered FileInv
      rw [onTimer_nextSeq, onTimer_enqueued, onTimer_inputFile, onTimer_allSent]
      exact hs
  exact (hnum m h).2

theorem chunkCount_eq (len cap n : Nat) (hcap : 0 < cap) (h1 : len ≤ n * cap)
    (h2 : n * cap < len + cap) : chunkCount len cap = n := by
  unfold chunkCount
  apply Nat.div_eq_of_lt_le
  · omega
  · rw [Nat.add_mul, Nat.one_mul]; omega

/-- Past the outer loop both flags are set. -/
theorem done_flags (p : Params) (file : List Nat) (m : Machine)
    (h : Reachable p file m) (hdone : m.loc = Loc.done) :
    m.s.allSent = true ∧ m.s.allAcked = true := by
  refine reachable_induction p file
    (fun m => m.loc = Loc.done → m.s.allSent = true ∧ m.s.allAcked = true) ?_ ?_ m h hdone
  · intro hloc
    simp [initial] at hloc
  · rintro ⟨loc, s⟩ poll _ ih hloc
    cases loc with
    | outerHead =>
      simp only [step] at hloc ⊢
      split at hloc
      · simp at hloc
      · next hc =>
        rw [if_neg hc]
        simpa using hc
    | fillHead =>
      simp only [step] at hloc
      split at hloc <;> simp at hloc
    | waitHead =>
      simp only [step, waitBody] at hloc
      split at hloc
      · split at hloc <;> simp at hloc
      · simp at hloc
    | done => exact ih rfl

/-! ## Lemmas on progress -/

/-- A valid acknowledgement of all data sent so far empties the window, up to
the end-of-file datagram, and so sets `allAcked`. -/
theorem onAck_of_acksAllData (p : Params) (file : List Nat) (m : Machine)
    (h : Reachable p file m) (d : datagramS) (ha : acksAllData m.s d.ackNum) :
    (onAck d m.s).allAcked = true
    ∧ ((onAck d m.s).allSent = false → (onAck d m.s).window = []) := by
  obtain ⟨t, ht⟩ := window_suffix_enqueued p file m h
  unfold acksAllData dataSent at ha
  have hlen : (popLoop d.ackNum m.s.window).length ≤ 1 := by
    cases hs : m.s.allSent with
    | false =>
      rw [hs] at ha
      simp only [Bool.false_eq_true, if_false] at ha
      rw [popLoop_eq_nil_of_lt _ _ (fun x hx => ha x (by rw [← ht]; exact List.mem_append_right t hx))]
      exact Nat.zero_le _
    | true =>
      rw [hs] at ha
      simp only [if_true] at ha
      rcases List.eq_nil_or_concat m.s.window with hnil | ⟨pre, b, hpre⟩
      · rw [hnil]; exact Nat.zero_le _
      · rw [List.concat_eq_append] at hpre
        have henq : m.s.enqueued = (t ++ pre) ++ [b] := by
          rw [← ht, hpre, List.append_assoc]
        rw [henq, List.dropLast_concat] at ha
        rw [hpre, popLoop_append_of_lt _ _ _ (fun x hx => ha x (List.mem_append_right t hx))]
        exact popLoop_length_le _ _
  refine ⟨?_, ?_⟩
  · simp only [onAck]
    rw [if_pos hlen]
  · intro hns
    have hns2 : m.s.allSent = false := hns
    rw [hns2] at ha
    simp only [Bool.false_eq_true, if_false] at ha
    show popLoop d.ackNum m.s.window = []
    exact popLoop_eq_nil_of_lt _ _
      (fun x hx => ha x (by rw [← ht]; exact List.mem_append_right t hx))

theorem fillBody_remaining_lt (p : Params) (s : Sender)
    (hP : 0 < p.MAX_PAYLOAD_LENGTH) (hns : s.allSent = false) :
    remaining (fillBody p s) < remaining s := by
  obtain ⟨window, nextSeq, allSent, allAcked, ⟨rest, failbit, g⟩, trace, enqueued⟩ := s
  simp only at hns
  subst hns
  cases failbit with
  | true =>
    have : atEof p { rest := rest, failbit := true, gcount := g } = true := by
      simp only [atEof]
      rw [read_of_fail]
      rfl
    simp [remaining, fillBody, this]
  | false =>
    by_cases h : p.MAX_PAYLOAD_LENGTH ≤ rest.length
    · simp only [remaining, fillBody, atEof_full p rest g h, fileAfter_full p rest g h,
        Bool.false_eq_true, if_false, List.length_drop]
      omega
    · have hlt : rest.length < p.MAX_PAYLOAD_LENGTH := by omega
      simp only [remaining, fillBody, atEof_short p rest g hlt, fileAfter_short p rest g hlt]
      by_cases h0 : rest.length = 0
      · simp [h0]
      · simp only [h0, decide_False, Bool.false_eq_true, if_false, List.length_nil]
        omega

theorem step_remaining_le (p : Params) (poll : Poll) (m : Machine)
    (hP : 0 < p.MAX_PAYLOAD_LENGTH) : remaining (step p poll m).s ≤ remaining m.s := by
  rcases step_sender_cases p poll m with h | ⟨_, h2, h⟩ | h | ⟨d, _, h⟩ | h
  · rw [h]
  · rw [h]; exact Nat.le_of_lt (fillBody_remaining_lt p m.s hP h2)
  · rw [h]; exact Nat.le_refl _
  · rw [h]; exact Nat.le_refl _
  · rw [h]
    unfold remaining
    rw [onTimer_allSent, onTimer_inputFile]

theorem run_remaining_mono (p : Params) (file : List Nat) (env : Nat → Poll)
    (hP : 0 < p.MAX_PAYLOAD_LENGTH) (t k : Nat) :
    remaining (run p file env (t + k)).s ≤ remaining (run p file env t).s := by
  induction k with
  | zero => exact Nat.le_refl _
  | succ k ih => exact Nat.le_trans (step_remaining_le p _ _ hP) ih

/-- The fill loop ends: from its test the loop gets to the wait phase. -/
theorem fill_reaches_wait (p : Params) (file : List Nat) (env : Nat → Poll) (k : Nat) :
    ∀ t, (run p file env t).loc = Loc.fillHead →
      p.windowSize - (run p file env t).s.window.length ≤ k →
      ∃ j, (run p file env (t + j)).loc = Loc.waitHead := by
  induction k with
  | zero =>
    intro t hloc hk
    refine ⟨1, ?_⟩
    show (step p (env t) (run p file env t)).loc = Loc.waitHead
    generalize run p file env t = m at hloc hk
    obtain ⟨loc, s⟩ := m
    simp only at hloc hk
    subst hloc
    simp only [step]
    rw [if_neg]
    simp only [Bool.and_eq_true, decide_eq_true_eq, not_and]
    intro hlt
    omega
  | succ k ih =>
    intro t hloc hk
    by_cases hg : (decide ((run p file env t).s.window.length < p.windowSize)
        && !(run p file env t).s.allSent) = true
    · have hnext : run p file env (t + 1)
          = { loc := Loc.fillHead, s := fillBody p (run p file env t).s } := by
        show step p (env t) (run p file env t) = _
        generalize run p file env t = m at hloc hg
        obtain ⟨loc, s⟩ := m
        simp only at hloc hg
        subst hloc
        simp only [step]
        rw [if_pos hg]
      obtain ⟨j, hj⟩ := ih (t + 1) (by rw [hnext]) (by
        rw [hnext]
        simp only [fillBody, List.length_append, List.length_singleton]
        omega)
      exact ⟨1 + j, by rw [← Nat.add_assoc]; exact hj⟩
    · refine ⟨1, ?_⟩
      show (step p (env t) (run p file env t)).loc = Loc.waitHead
      generalize run p file env t = m at hloc hg
      obtain ⟨loc, s⟩ := m
      simp only at hloc hg
      subst hloc
      simp only [step]
      rw [if_neg hg]

/-- Under a fair channel the wait loop ends, with `allAcked` set and, unless
the end-of-file datagram has been sent, with an empty window. -/
theorem wait_reaches_outer (p : Params) (file : List Nat) (env : Nat → Poll)
    (hfair : FairChannel p file env) (k : Nat) :
    ∀ t, (run p file env t).loc = Loc.waitHead →
      (∃ u d, t ≤ u ∧ u ≤ t + k ∧ (env u).recv = some d ∧ p.validateChecksum d = true) →
      ∃ j, (run p file env (t + j)).loc = Loc.outerHead
        ∧ (run p file env (t + j)).s.allAcked = true
        ∧ ((run p file env (t + j)).s.allSent = false →
            (run p file env (t + j)).s.window = []) := by
  induction k with
  | zero =>
    intro t hloc hex
    obtain ⟨u, d, h1, h2, hrecv, hvalid⟩ := hex
    have hu : u = t := by omega
    subst hu
    have hacks := (hfair u hloc).2 d hrecv hvalid
    have hreach := reachable_run p file env u
    have hnext : run p file env (u + 1)
        = { loc := Loc.outerHead, s := onAck d (run p file env u).s } := by
      show step p (env u) (run p file env u) = _
      generalize run p file env u = m at hloc
      obtain ⟨loc, s⟩ := m
      simp only at hloc
      subst hloc
      simp only [step]
      exact waitBody_of_valid p (env u) s d hrecv hvalid
    refine ⟨1, ?_⟩
    rw [hnext]
    exact ⟨rfl, onAck_of_acksAllData p file _ hreach d hacks⟩
  | succ k ih =>
    intro t hloc hex
    by_cases hv : ∃ d, (env t).recv = some d ∧ p.validateChecksum d = true
    · obtain ⟨d, hrecv, hvalid⟩ := hv
      have hacks := (hfair t hloc).2 d hrecv hvalid
      have hreach := reachable_run p file env t
      have hnext : run p file env (t + 1)
          = { loc := Loc.outerHead, s := onAck d (run p file env t).s } := by
        show step p (env t) (run p file env t) = _
        generalize run p file env t = m at hloc
        obtain ⟨loc, s⟩ := m
        simp only at hloc
        subst hloc
        simp only [step]
        exact waitBody_of_valid p (env t) s d hrecv hvalid
      refine ⟨1, ?_⟩
      rw [hnext]
      exact ⟨rfl, onAck_of_acksAllData p file _ hreach d hacks⟩
    · have hno : noValidDatagram p (env t) := by
        intro d hd
        by_contra hne
        exact hv ⟨d, hd, by simpa using hne⟩
      have hnext : (run p file env (t + 1)).loc = Loc.waitHead := by
        show (step p (env t) (run p file env t)).loc = Loc.waitHead
        generalize run p file env t = m at hloc
        obtain ⟨loc, s⟩ := m
        simp only at hloc
        subst hloc
        simp only [step]
        rw [waitBody_of_noValid p (env t) s hno]
      obtain ⟨u, d, h1, h2, hrecv, hvalid⟩ := hex
      have hut : u ≠ t := by
        rintro rfl
        exact hv ⟨d, hrecv, hvalid⟩
      obtain ⟨j, hj⟩ := ih (t + 1) hnext ⟨u, d, by omega, by omega, hrecv, hvalid⟩
      refine ⟨1 + j, ?_⟩
      rw [← Nat.add_assoc]
      exact hj

/-- Under a fair channel, with room for one datagram in the window and a
payload capacity of at least one byte, the loop gets past the outer loop from
every pass of the outer test at which the window is empty unless the
end-of-file datagram has been sent, and `allAcked` is set if it has. -/
theorem outer_reaches_done (p : Params) (file : List Nat) (env : Nat → Poll)
    (hW : 1 ≤ p.windowSize) (hP : 0 < p.MAX_PAYLOAD_LENGTH)
    (hfair : FairChannel p file env) (k : Nat) :
    ∀ t, (run p file env t).loc = Loc.outerHead →
      ((run p file env t).s.allSent = true → (run p file env t).s.allAcked = true) →
      ((run p file env t).s.allSent = false → (run p file env t).s.window = []) →
      remaining (run p file env t).s ≤ k →
      ∃ n, (run p file env n).loc = Loc.done := by
  induction k using Nat.strong_induction_on with
  | _ k ih =>
    intro t hloc hsent hwin hk
    cases hs : (run p file env t).s.allSent with
    | true =>
      refine ⟨t + 1, ?_⟩
      show (step p (env t) (run p file env t)).loc = Loc.done
      have hacked := hsent hs
      generalize run p file env t = m at hloc hs hacked
      obtain ⟨loc, s⟩ := m
      simp only at hloc hs hacked
      subst hloc
      simp [step, hs, hacked]
    | false =>
      have hw0 := hwin hs
      have h1 : run p file env (t + 1)
          = { loc := Loc.fillHead, s := (run p file env t).s } := by
        show step p (env t) (run p file env t) = _
        generalize run p file env t = m at hloc hs
        obtain ⟨loc, s⟩ := m
        simp only at hloc hs
        subst hloc
        simp [step, hs]
      have h2 : run p file env (t + 1 + 1)
          = { loc := Loc.fillHead, s := fillBody p (run p file env t).s } := by
        show step p (env (t + 1)) (run p file env (t + 1)) = _
        rw [h1]
        simp only [step]
        rw [if_pos]
        simp only [Bool.and_eq_true, decide_eq_true_eq, Bool.not_eq_true_eq_eq_false, hw0,
          List.length_nil, hs]
        exact ⟨by omega, trivial⟩
      have hlt : remaining (run p file env (t + 1 + 1)).s < remaining (run p file env t).s := by
        rw [h2]
        exact fillBody_remaining_lt p _ hP hs
      obtain ⟨j1, hj1⟩ := fill_reaches_wait p file env _ (t + 1 + 1) (by rw [h2])
        (Nat.le_refl _)
      obtain ⟨u, d, hu, hrecv, hvalid⟩ := (hfair _ hj1).1
      obtain ⟨j2, hj2, hacked, hempty⟩ := wait_reaches_outer p file env hfair
        (u - (t + 1 + 1 + j1)) (t + 1 + 1 + j1) hj1 ⟨u, d, hu, by omega, hrecv, hvalid⟩
      have hmono : remaining (run p file env (t + 1 + 1 + j1 + j2)).s
          ≤ remaining (run p file env (t + 1 + 1)).s := by
        rw [Nat.add_assoc (t + 1 + 1) j1 j2]
        exact run_remaining_mono p file env hP _ _
      exact ih (remaining (run p file env (t + 1 + 1 + j1 + j2)).s) (by omega)
        (t + 1 + 1 + j1 + j2) hj2 (fun _ => hacked) hempty (Nat.le_refl _)

theorem run_done_stable (p : Params) (file : List Nat) (env : Nat → Poll) (t : Nat)
    (h : (run p file env t).loc = Loc.done) (k : Nat) :
    run p file env (t + k) = run p file env t := by
  induction k with
  | zero => rfl
  | succ k ih =>
    show step p (env (t + k)) (run p file env (t + k)) = _
    rw [ih]
    generalize run p file env t = m at h
    obtain ⟨loc, s⟩ := m
    simp only at h
    subst h
    rfl

/-- The channel that acknowledges 3 at every pass is fair to the two-byte file
sent with window size 3 and one byte per datagram. -/
theorem alwaysAck_fair : FairChannel (demo 3 1) [7, 8] (alwaysAck 3) := by
  intro t ht
  have ht5 : t = 5 := by
    rcases Nat.lt_or_ge t 7 with hlt | hge
    · interval_cases t
      · exact absurd ht (by decide)
      · exact absurd ht (by decide)
      · exact absurd ht (by decide)
      · exact absurd ht (by decide)
      · exact absurd ht (by decide)
      · rfl
      · exact absurd ht (by decide)
    · have hst := run_done_stable (demo 3 1) [7, 8] (alwaysAck 3) 7 (by decide) (t - 7)
      rw [show 7 + (t - 7) = t by omega] at hst
      rw [hst] at ht
      exact absurd ht (by decide)
  subst ht5
  refine ⟨⟨5, ackOf 3, Nat.le_refl _, rfl, by decide⟩, ?_⟩
  intro d hd _
  have hd3 : d = ackOf 3 := by
    simp only [alwaysAck, Option.some.injEq] at hd
    exact hd.symm
  subst hd3
  unfold acksAllData dataSent
  decide

/-! ## Lemmas on the order of the window -/

/-- While no sequence number has passed `INT_MAX` the window is strictly
increasing. -/
theorem window_pairwise (p : Params) (file : List Nat) (m : Machine)
    (h : Reachable p file m) (hlen : m.s.enqueued.length ≤ 2147483647) :
    m.s.window.Pairwise (fun x y => x.seqNum < y.seqNum) := by
  rw [List.pairwise_iff_getElem]
  intro i j hi hj hij
  obtain ⟨h1, _, _, hle⟩ := window_seqNum p file m h i _ (List.getElem?_eq_getElem hi)
  obtain ⟨h2, _, _, _⟩ := window_seqNum p file m h j _ (List.getElem?_eq_getElem hj)
  rw [h1, h2, wrapInt_of_range _ (by omega) (by omega),
    wrapInt_of_range _ (by omega) (by omega)]
  omega

/-- A step either leaves a suffix of the window or appends one datagram at its
back. -/
theorem step_window (p : Params) (poll : Poll) (m : Machine) :
    (step p poll m).s.window <:+ m.s.window
    ∨ ∃ d, (step p poll m).s.window = m.s.window ++ [d] := by
  rcases step_sender_cases p poll m with h | ⟨_, _, h⟩ | h | ⟨d, _, h⟩ | h
  · left; exact h ▸ List.suffix_refl _
  · right; rw [h]; exact ⟨_, rfl⟩
  · left; exact h ▸ List.suffix_refl _
  · left; rw [h]; exact popLoop_isSuffix _ _
  · left
    have hw : (step p poll m).s.window = m.s.window := by rw [h, onTimer_window]
    exact hw ▸ List.suffix_refl _

/-! ## Lemmas on the timer calls -/

theorem runningAfter_append (r : Bool) (t l : List Action) :
    runningAfter r (t ++ l) = runningAfter (runningAfter r t) l := by
  induction t generalizing r with
  | nil => rfl
  | cons a t ih =>
    cases a <;> (rw [List.cons_append]; simp only [runningAfter]; exact ih _)

theorem wellTimed_append (r : Bool) (t l : List Action) :
    wellTimed r (t ++ l) ↔ wellTimed r t ∧ wellTimed (runningAfter r t) l := by
  induction t generalizing r with
  | nil => simp [wellTimed, runningAfter]
  | cons a t ih =>
    cases a with
    | start =>
      rw [List.cons_append]
      simp only [wellTimed, runningAfter]
      rw [and_assoc, and_congr_right_iff]
      intro _
      exact ih _
    | stop => rw [List.cons_append]; simp only [wellTimed, runningAfter]; exact ih _
    | udt_send d => rw [List.cons_append]; simp only [wellTimed, runningAfter]; exact ih _
    | setDuration ms => rw [List.cons_append]; simp only [wellTimed, runningAfter]; exact ih _

theorem runningAfter_sends (r : Bool) (w : List datagramS) :
    runningAfter r (w.map Action.udt_send) = r := by
  induction w with
  | nil => rfl
  | cons d w ih => simpa only [List.map_cons, runningAfter] using ih

theorem wellTimed_sends (r : Bool) (w : List datagramS) :
    wellTimed r (w.map Action.udt_send) := by
  induction w with
  | nil => exact trivial
  | cons d w ih => simpa only [List.map_cons, wellTimed] using ih

/-- A timer that is not running after a trace was either not running before it
and never started in it, or was stopped in it and not started since. -/
theorem stopped_cases (r : Bool) (pre : List Action)
    (h : runningAfter r pre = false) :
    (r = false ∧ Action.start ∉ pre)
    ∨ ∃ a b, pre = a ++ Action.stop :: b ∧ Action.start ∉ b := by
  induction pre generalizing r with
  | nil => exact Or.inl ⟨h, List.not_mem_nil _⟩
  | cons x t ih =>
    cases x with
    | start =>
      rcases ih true h with ⟨hr, _⟩ | ⟨a, b, hab, hb⟩
      · exact absurd hr (by decide)
      · exact Or.inr ⟨Action.start :: a, b, by rw [hab]; rfl, hb⟩
    | stop =>
      rcases ih false h with ⟨_, ht⟩ | ⟨a, b, hab, hb⟩
      · exact Or.inr ⟨[], t, rfl, ht⟩
      · exact Or.inr ⟨Action.stop :: a, b, by rw [hab]; rfl, hb⟩
    | udt_send d =>
      rcases ih r h with ⟨hr, ht⟩ | ⟨a, b, hab, hb⟩
      · refine Or.inl ⟨hr, ?_⟩
        intro hmem
        rcases List.mem_cons.mp hmem with he | he
        · exact Action.noConfusion he
        · exact ht he
      · exact Or.inr ⟨Action.udt_send d :: a, b, by rw [hab]; rfl, hb⟩
    | setDuration ms =>
      rcases ih r h with ⟨hr, ht⟩ | ⟨a, b, hab, hb⟩
      · refine Or.inl ⟨hr, ?_⟩
        intro hmem
        rcases List.mem_cons.mp hmem with he | he
        · exact Action.noConfusion he
        · exact ht he
      · exact Or.inr ⟨Action.setDuration ms :: a, b, by rw [hab]; rfl, hb⟩

/-- In every reachable state no `start` was called on a running timer, and the
timer is running exactly while the loop is in the wait loop. -/
theorem timer_invariant (p : Params) (file : List Nat) (m : Machine)
    (h : Reachable p file m) :
    wellTimed false m.s.trace
    ∧ runningAfter false m.s.trace = decide (m.loc = Loc.waitHead) := by
  refine reachable_induction p file
    (fun m => wellTimed false m.s.trace
      ∧ runningAfter false m.s.trace = decide (m.loc = Loc.waitHead)) ?_ ?_ m h
  · exact ⟨trivial, rfl⟩
  · rintro ⟨loc, s⟩ poll _ ⟨hw, hr⟩
    cases loc with
    | outerHead =>
      simp only [step]
      split
      · exact ⟨hw, hr⟩
      · exact ⟨hw, hr⟩
    | fillHead =>
      have hr0 : runningAfter false s.trace = false := hr
      simp only [step]
      split
      · refine ⟨?_, ?_⟩
        · simp only [fillBody, wellTimed_append, wellTimed, and_true]
          exact hw
        · simp only [fillBody, runningAfter_append, runningAfter, hr0]
          rfl
      · refine ⟨?_, ?_⟩
        · simp only [arm, wellTimed_append, wellTimed, and_true, hr0]
          exact hw
        · simp only [arm, runningAfter_append, runningAfter]
          rfl
    | waitHead =>
      by_cases hv : ∃ d, poll.recv = some d ∧ p.validateChecksum d = true
      · obtain ⟨d, hrecv, hvalid⟩ := hv
        have hb : step p poll { loc := Loc.waitHead, s := s }
            = { loc := Loc.outerHead, s := onAck d s } :=
          waitBody_of_valid p poll s d hrecv hvalid
        rw [hb]
        refine ⟨?_, ?_⟩
        · simp only [onAck, wellTimed_append, wellTimed, and_true]
          exact hw
        · simp only [onAck, runningAfter_append, runningAfter]
          rfl
      · have hno : noValidDatagram p poll := by
          intro d hd
          by_contra hne
          exact hv ⟨d, hd, by simpa using hne⟩
        have hb : step p poll { loc := Loc.waitHead, s := s }
            = { loc := Loc.waitHead, s := onTimer p poll.expired s } :=
          waitBody_of_noValid p poll s hno
        rw [hb]
        cases poll.expired with
        | false => exact ⟨hw, hr⟩
        | true =>
          refine ⟨?_, ?_⟩
          · simp only [onTimer, if_true, wellTimed_append, runningAfter_append, wellTimed,
              runningAfter, runningAfter_sends, and_true]
            exact ⟨hw, wellTimed_sends _ _⟩
          · simp only [onTimer, if_true, runningAfter_append, runningAfter]
            rfl
    | done => exact ⟨hw, hr⟩

/-! ## Lemmas on the window in the wait phase -/

theorem step_wait_expired (p : Params) (poll : Poll) (m : Machine)
    (hloc : m.loc = Loc.waitHead) (hno : noValidDatagram p poll)
    (hexp : poll.expired = true) :
    step p poll m = { loc := Loc.waitHead, s := onTimer p true m.s } := by
  obtain ⟨loc, s⟩ := m
  simp only at hloc
  subst hloc
  simp only [step]
  rw [waitBody_of_noValid p poll s hno, hexp]

/-- With a window size of at least 1: at the outer test an empty window means
`allAcked` is set or the end-of-file datagram is still to come, at the fill
test an empty window means the end-of-file datagram is still to come, and in
the wait loop the window is not empty and is full unless `allSent` is set. -/
theorem wait_invariant (p : Params) (file : List Nat) (m : Machine)
    (hW : 1 ≤ p.windowSize) (h : Reachable p file m) :
    (m.loc = Loc.outerHead → m.s.window = [] →
      m.s.allAcked = true ∨ m.s.allSent = false)
    ∧ (m.loc = Loc.fillHead → m.s.window = [] → m.s.allSent = false)
    ∧ (m.loc = Loc.waitHead →
        m.s.window ≠ [] ∧ (m.s.window.length = p.windowSize ∨ m.s.allSent = true)) := by
  refine reachable_induction p file
    (fun m => (m.loc = Loc.outerHead → m.s.window = [] →
        m.s.allAcked = true ∨ m.s.allSent = false)
      ∧ (m.loc = Loc.fillHead → m.s.window = [] → m.s.allSent = false)
      ∧ (m.loc = Loc.waitHead →
          m.s.window ≠ [] ∧ (m.s.window.length = p.windowSize ∨ m.s.allSent = true)))
    ?_ ?_ m h
  · refine ⟨fun _ _ => Or.inr rfl, fun hl => ?_, fun hl => ?_⟩
    · exact absurd hl (by simp [initial])
    · exact absurd hl (by simp [initial])
  · rintro ⟨loc, s⟩ poll hreach ⟨ho, hf, hwt⟩
    have hbound : s.window.length ≤ p.windowSize := window_length_le p file _ hreach
    cases loc with
    | outerHead =>
      by_cases hc : (!s.allSent || !s.allAcked) = true
      · have hb : step p poll { loc := Loc.outerHead, s := s }
            = { loc := Loc.fillHead, s := s } := by
          simp only [step]; rw [if_pos hc]
        rw [hb]
        refine ⟨fun hl => absurd hl (by simp), fun _ hw => ?_, fun hl => absurd hl (by simp)⟩
        rcases ho rfl hw with ha | hs
        · cases hsent : s.allSent with
          | false => rfl
          | true =>
            have ha2 : s.allAcked = true := ha
            simp [hsent, ha2] at hc
        · exact hs
      · have hb : step p poll { loc := Loc.outerHead, s := s }
            = { loc := Loc.done, s := s } := by
          simp only [step]; rw [if_neg hc]
        rw [hb]
        exact ⟨fun hl => absurd hl (by simp), fun hl => absurd hl (by simp),
          fun hl => absurd hl (by simp)⟩
    | fillHead =>
      by_cases hg : (decide (s.window.length < p.windowSize) && !s.allSent) = true
      · have hb : step p poll { loc := Loc.fillHead, s := s }
            = { loc := Loc.fillHead, s := fillBody p s } := by
          simp only [step]; rw [if_pos hg]
        rw [hb]
        refine ⟨fun hl => absurd hl (by simp), fun _ hw => ?_, fun hl => absurd hl (by simp)⟩
        simp [fillBody] at hw
      · have hb : step p poll { loc := Loc.fillHead, s := s }
            = { loc := Loc.waitHead, s := arm p s } := by
          simp only [step]; rw [if_neg hg]
        rw [hb]
        refine ⟨fun hl => absurd hl (by simp), fun hl => absurd hl (by simp), fun _ => ?_⟩
        show s.window ≠ [] ∧ (s.window.length = p.windowSize ∨ s.allSent = true)
        cases hsent : s.allSent with
        | true =>
          refine ⟨?_, Or.inr rfl⟩
          intro hw
          have := hf rfl hw
          rw [hsent] at this
          exact Bool.noConfusion this
        | false =>
          have hge : ¬ s.window.length < p.windowSize := by
            intro hlt
            apply hg
            simp [hlt, hsent]
          refine ⟨?_, Or.inl (by omega)⟩
          intro hw
          rw [hw] at hge
          simp only [List.length_nil] at hge
          omega
    | waitHead =>
      by_cases hv : ∃ d, poll.recv = some d ∧ p.validateChecksum d = true
      · obtain ⟨d, hrecv, hvalid⟩ := hv
        have hb : step p poll { loc := Loc.waitHead, s := s }
            = { loc := Loc.outerHead, s := onAck d s } :=
          waitBody_of_valid p poll s d hrecv hvalid
        rw [hb]
        refine ⟨fun _ hw => Or.inl ?_, fun hl => absurd hl (by simp),
          fun hl => absurd hl (by simp)⟩
        have hw2 : popLoop d.ackNum s.window = [] := hw
        simp only [onAck]
        rw [hw2, if_pos (by simp)]
      · have hno : noValidDatagram p poll := by
          intro d hd
          by_contra hne
          exact hv ⟨d, hd, by simpa using hne⟩
        have hb : step p poll { loc := Loc.waitHead, s := s }
            = { loc := Loc.waitHead, s := onTimer p poll.expired s } :=
          waitBody_of_noValid p poll s hno
        rw [hb]
        refine ⟨fun hl => absurd hl (by simp), fun hl => absurd hl (by simp), fun _ => ?_⟩
        show (onTimer p poll.expired s).window ≠ []
          ∧ ((onTimer p poll.expired s).window.length = p.windowSize
              ∨ (onTimer p poll.expired s).allSent = true)
        rw [onTimer_window, onTimer_allSent]
        exact hwt rfl
    | done =>
      have hb : step p poll { loc := Loc.done, s := s } = { loc := Loc.done, s := s } := rfl
      rw [hb]
      exact ⟨fun hl => absurd hl (by simp), fun hl => absurd hl (by simp),
        fun hl => absurd hl (by simp)⟩

/-! ## Lemmas on the first fill phase -/

/-- The fill body on a full-size chunk: `allSent` keeps its value and the
stream moves on by `MAX_PAYLOAD_LENGTH` bytes. -/
theorem fillBody_full (p : Params) (s : Sender) (hfb : s.inputFile.failbit = false)
    (hlen : p.MAX_PAYLOAD_LENGTH ≤ s.inputFile.rest.length) :
    (fillBody p s).allSent = s.allSent
    ∧ (fillBody p s).inputFile.failbit = false
    ∧ (fillBody p s).inputFile.rest = s.inputFile.rest.drop p.MAX_PAYLOAD_LENGTH := by
  obtain ⟨window, nextSeq, allSent, allAcked, ⟨rest, failbit, g⟩, trace, enqueued⟩ := s
  simp only at hfb hlen
  subst hfb
  refine ⟨?_, ?_, ?_⟩
  · simp only [fillBody, atEof_full p rest g hlen]
    rfl
  · simp only [fillBody, fileAfter_full p rest g hlen]
  · simp only [fillBody, fileAfter_full p rest g hlen]

/-- From the outer test with an empty window, as long as the window has room
and the file has full payloads left, the fill phase enqueues one datagram per
step. -/
theorem fill_from (p : Params) (file : List Nat) (env : Nat → Poll) (t e : Nat)
    (h : AtRoundStart p file (run p file env t) e) (n : Nat)
    (hW : n ≤ p.windowSize) (hL : (e + n) * p.MAX_PAYLOAD_LENGTH ≤ file.length) :
    (run p file env (t + 1 + n)).loc = Loc.fillHead
    ∧ (run p file env (t + 1 + n)).s.allSent = false
    ∧ (run p file env (t + 1 + n)).s.window.length = n
    ∧ (run p file env (t + 1 + n)).s.inputFile.failbit = false
    ∧ (run p file env (t + 1 + n)).s.enqueued.length = e + n
    ∧ (run p file env (t + 1 + n)).s.inputFile.rest
        = file.drop ((e + n) * p.MAX_PAYLOAD_LENGTH) := by
  obtain ⟨hloc0, hsent0, hwin0, hfb0, hlen0, hrest0⟩ := h
  induction n with
  | zero =>
    have h1 : run p file env (t + 1) = { loc := Loc.fillHead, s := (run p file env t).s } := by
      show step p (env t) (run p file env t) = _
      generalize run p file env t = m at hloc0 hsent0
      obtain ⟨loc, s⟩ := m
      simp only at hloc0 hsent0
      subst hloc0
      simp [step, hsent0]
    refine ⟨?_, ?_, ?_, ?_, ?_, ?_⟩
    · show (run p file env (t + 1)).loc = _
      rw [h1]
    · show (run p file env (t + 1)).s.allSent = _
      rw [h1]; exact hsent0
    · show (run p file env (t + 1)).s.window.length = _
      rw [h1]
      show (run p file env t).s.window.length = 0
      rw [hwin0]; rfl
    · show (run p file env (t + 1)).s.inputFile.failbit = _
      rw [h1]; exact hfb0
    · show (run p file env (t + 1)).s.enqueued.length = _
      rw [h1]; exact hlen0
    · show (run p file env (t + 1)).s.inputFile.rest = _
      rw [h1]; exact hrest0
  | succ n ih =>
    have hL2 : (e + n) * p.MAX_PAYLOAD_LENGTH + p.MAX_PAYLOAD_LENGTH ≤ file.length := by
      have : (e + (n + 1)) * p.MAX_PAYLOAD_LENGTH
          = (e + n) * p.MAX_PAYLOAD_LENGTH + p.MAX_PAYLOAD_LENGTH := by
        rw [← Nat.add_assoc, Nat.add_mul, Nat.one_mul]
      omega
    obtain ⟨hloc, hsent, hwl, hfb, hlen, hrest⟩ := ih (by omega) (by omega)
    have hroom : p.MAX_PAYLOAD_LENGTH
        ≤ (run p file env (t + 1 + n)).s.inputFile.rest.length := by
      rw [hrest, List.length_drop]; omega
    have hstep : run p file env (t + 1 + (n + 1))
        = { loc := Loc.fillHead, s := fillBody p (run p file env (t + 1 + n)).s } := by
      show step p (env (t + 1 + n)) (run p file env (t + 1 + n)) = _
      have hwl2 : (run p file env (t + 1 + n)).s.window.length < p.windowSize := by
        rw [hwl]; omega
      generalize run p file env (t + 1 + n) = m at hloc hsent hwl2
      obtain ⟨loc, s⟩ := m
      simp only at hloc hsent hwl2
      subst hloc
      simp only [step]
      rw [if_pos (by simp [hwl2, hsent])]
    obtain ⟨h1, h2, h3⟩ := fillBody_full p _ hfb hroom
    have hw2 : (fillBody p (run p file env (t + 1 + n)).s).window.length = n + 1 := by
      simp only [fillBody, List.length_append, List.length_singleton]
      rw [hwl]
    have hl2 : (fillBody p (run p file env (t + 1 + n)).s).enqueued.length = e + (n + 1) := by
      simp only [fillBody, List.length_append, List.length_singleton]
      rw [hlen]; rfl
    have hr2 : (fillBody p (run p file env (t + 1 + n)).s).inputFile.rest
        = file.drop ((e + (n + 1)) * p.MAX_PAYLOAD_LENGTH) := by
      rw [h3, hrest, List.drop_drop, ← Nat.add_assoc e n 1, Nat.add_mul (e + n) 1,
        Nat.one_mul, Nat.add_comm]
    refine ⟨?_, ?_, ?_, ?_, ?_, ?_⟩
    · rw [hstep]
    · rw [hstep]; exact h1.trans hsent
    · rw [hstep]; exact hw2
    · rw [hstep]; exact h2
    · rw [hstep]; exact hl2
    · rw [hstep]; exact hr2

/-- A whole round from the outer test with an empty window: when the file has
`windowSize` full payloads left, no sequence number passes `INT_MAX`, and the
pass of the wait loop receives a valid acknowledgement above all sequence
numbers handed out, the loop is back at the outer test with an empty window
and `windowSize` more datagrams enqueued. -/
theorem round_from (p : Params) (file : List Nat) (env : Nat → Poll) (t e : Nat)
    (h : AtRoundStart p file (run p file env t) e)
    (hL : (e + p.windowSize) * p.MAX_PAYLOAD_LENGTH ≤ file.length)
    (hmax : e + p.windowSize ≤ 2147483647) (d : datagramS)
    (hrecv : (env (t + 1 + p.windowSize + 1)).recv = some d)
    (hvalid : p.validateChecksum d = true)
    (hack : ((e + p.windowSize : Nat) : Int) < d.ackNum) :
    AtRoundStart p file (run p file env (t + 1 + p.windowSize + 1 + 1)) (e + p.windowSize) := by
  obtain ⟨hloc, hsent, hwl, hfb, hlen, hrest⟩ :=
    fill_from p file env t e h p.windowSize (Nat.le_refl _) hL
  have harm : run p file env (t + 1 + p.windowSize + 1)
      = { loc := Loc.waitHead, s := arm p (run p file env (t + 1 + p.windowSize)).s } := by
    show step p (env (t + 1 + p.windowSize)) (run p file env (t + 1 + p.windowSize)) = _
    generalize run p file env (t + 1 + p.windowSize) = m at hloc hwl
    obtain ⟨loc, s⟩ := m
    simp only at hloc hwl
    subst hloc
    simp only [step]
    rw [if_neg (by simp [hwl])]
  have hreach := reachable_run p file env (t + 1 + p.windowSize + 1)
  have hnum := numbered_of_reachable p file _ hreach
  have hsuf := window_suffix_enqueued p file _ hreach
  have hack2 : run p file env (t + 1 + p.windowSize + 1 + 1)
      = { loc := Loc.outerHead, s := onAck d (run p file env (t + 1 + p.windowSize + 1)).s } := by
    show step p (env (t + 1 + p.windowSize + 1)) (run p file env (t + 1 + p.windowSize + 1)) = _
    rw [harm]
    exact waitBody_of_valid p _ _ d hrecv hvalid
  have hlen2 : (run p file env (t + 1 + p.windowSize + 1)).s.enqueued.length
      = e + p.windowSize := by
    rw [harm]; exact hlen
  have hpop : popLoop d.ackNum (run p file env (t + 1 + p.windowSize + 1)).s.window = [] := by
    apply popLoop_eq_nil_of_lt
    intro x hx
    obtain ⟨i, hi⟩ := List.mem_iff_getElem?.mp (hsuf.subset hx)
    have hilt : i < (run p file env (t + 1 + p.windowSize + 1)).s.enqueued.length := by
      by_contra hge
      rw [List.getElem?_eq_none (by omega)] at hi
      exact Option.noConfusion hi
    rw [hnum.2 i x hi, wrapInt_of_range _ (by omega) (by omega)]
    omega
  rw [hack2]
  refine ⟨rfl, ?_, hpop, ?_, ?_, ?_⟩
  · show (run p file env (t + 1 + p.windowSize + 1)).s.allSent = false
    rw [harm]; exact hsent
  · show (run p file env (t + 1 + p.windowSize + 1)).s.inputFile.failbit = false
    rw [harm]; exact hfb
  · exact hlen2
  · show (run p file env (t + 1 + p.windowSize + 1)).s.inputFile.rest = _
    rw [harm]; exact hrest

/-- Round after round: if the wait phase of every round receives a valid
acknowledgement of everything sent, then as long as the file has full payloads
left and no sequence number passes `INT_MAX`, round `r` starts at step
`r * (windowSize + 3)` with an empty window and `r * windowSize` datagrams
enqueued. -/
theorem rounds (p : Params) (file : List Nat) (env : Nat → Poll)
    (hacks : ∀ r, ∃ d, (env (r * (p.windowSize + 3) + 1 + p.windowSize + 1)).recv = some d
      ∧ p.validateChecksum d = true
      ∧ ((r * p.windowSize + p.windowSize : Nat) : Int) < d.ackNum) (r : Nat)
    (hL : r * p.windowSize * p.MAX_PAYLOAD_LENGTH ≤ file.length)
    (hmax : r * p.windowSize ≤ 2147483647) :
    AtRoundStart p file (run p file env (r * (p.windowSize + 3))) (r * p.windowSize) := by
  induction r with
  | zero =>
    rw [Nat.zero_mul, Nat.zero_mul]
    exact ⟨rfl, rfl, rfl, rfl, rfl, by simp [run, initial]⟩
  | succ r ih =>
    have he : (r + 1) * p.windowSize = r * p.windowSize + p.windowSize := by
      rw [Nat.add_mul, Nat.one_mul]
    have ht : (r + 1) * (p.windowSize + 3)
        = r * (p.windowSize + 3) + 1 + p.windowSize + 1 + 1 := by
      rw [Nat.add_mul, Nat.one_mul]; omega
    rw [he] at hL hmax
    have hL0 : r * p.windowSize * p.MAX_PAYLOAD_LENGTH ≤ file.length :=
      Nat.le_trans (Nat.mul_le_mul_right _ (Nat.le_add_right _ _)) hL
    obtain ⟨d, hrecv, hvalid, hack⟩ := hacks r
    rw [he, ht]
    exact round_from p file env _ _ (ih hL0 (by omega)) hL hmax d hrecv hvalid hack

/-- The cumulative acknowledgements of `cumulativeAcks` are those of a receiver
that gets everything, for window size 10. -/
theorem cumulativeAcks_acks (cap : Nat) (r : Nat) :
    ∃ d, (cumulativeAcks (r * ((demo 10 cap).windowSize + 3) + 1
        + (demo 10 cap).windowSize + 1)).recv = some d
      ∧ (demo 10 cap).validateChecksum d = true
      ∧ ((r * (demo 10 cap).windowSize + (demo 10 cap).windowSize : Nat) : Int) < d.ackNum := by
  have hdiv : (r * (10 + 3) + 1 + 10 + 1) / 13 = r := by omega
  refine ⟨ackOf ((10 * r + 11 : Nat) : Int), ?_, rfl, ?_⟩
  · show some (ackOf ((10 * ((r * (10 + 3) + 1 + 10 + 1) / 13) + 11 : Nat) : Int)) = _
    rw [hdiv]
  · show ((r * 10 + 10 : Nat) : Int) < ((10 * r + 11 : Nat) : Int)
    omega

/-- A file of `2^31` bytes sent one byte per datagram with window size 10 to a
receiver that gets everything: after 214748364 whole rounds and eight passes
of the fill body, `2^31` datagrams have been enqueued and the last eight are in
the window. -/
theorem long_run :
    (run (demo 10 1) (List.replicate 2147483648 0) cumulativeAcks 2791728741).s.enqueued.length
      = 2147483648
    ∧ (run (demo 10 1) (List.replicate 2147483648 0) cumulativeAcks 2791728741).s.window.length
      = 8 := by
  have hstart := rounds (demo 10 1) (List.replicate 2147483648 0) cumulativeAcks
    (cumulativeAcks_acks 1) 214748364
    (by rw [List.length_replicate]; show 214748364 * 10 * 1 ≤ 2147483648; omega)
    (by show 214748364 * 10 ≤ 2147483647; omega)
  obtain ⟨_, _, hwl, _, hlen, _⟩ := fill_from (demo 10 1) (List.replicate 2147483648 0)
    cumulativeAcks _ _ hstart 8 (by show 8 ≤ 10; omega)
    (by rw [List.length_replicate]; show (214748364 * 10 + 8) * 1 ≤ 2147483648; omega)
  have ht : 214748364 * ((demo 10 1).windowSize + 3) + 1 + 8 = 2791728741 := by
    show 214748364 * (10 + 3) + 1 + 8 = 2791728741
    omega
  have he : 214748364 * (demo 10 1).windowSize + 8 = 2147483648 := by
    show 214748364 * 10 + 8 = 2147483648
    omega
  rw [ht] at hwl hlen
  rw [he] at hlen
  exact ⟨hlen, hwl⟩

/-! ## The claims -/

/-- Claim C1. When the sequence numbers of the window strictly increase from
front to back and a datagram that validates arrives with `ackNum = a`, the
window after the pop loop is the old window restricted to the entries with
`seqNum ≥ a`, in the same order, and it is a suffix of the old window: every
entry with `seqNum < a` is gone and every entry with `seqNum ≥ a` is kept. -/
theorem ack_keeps_exactly_unacknowledged (p : Params) (poll : Poll)
    (recvDatagram : datagramS) (s : Sender)
    (hrecv : poll.recv = some recvDatagram)
    (hvalid : p.validateChecksum recvDatagram = true)
    (hinc : s.window.Pairwise (fun x y => x.seqNum < y.seqNum)) :
    (waitBody p poll s).s.window
        = s.window.filter (fun d => decide (recvDatagram.ackNum ≤ d.seqNum))
    ∧ (waitBody p poll s).s.window <:+ s.window
    ∧ (∀ d, d ∈ s.window → d.seqNum < recvDatagram.ackNum →
        d ∉ (waitBody p poll s).s.window)
    ∧ (∀ d, d ∈ s.window → recvDatagram.ackNum ≤ d.seqNum →
        d ∈ (waitBody p poll s).s.window) := by
  rw [waitBody_of_valid p poll s recvDatagram hrecv hvalid]
  have hf := popLoop_eq_filter recvDatagram.ackNum s.window hinc
  refine ⟨hf, popLoop_isSuffix _ _, ?_, ?_⟩
  · intro d _ hlt hmem
    have hmem2 : d ∈ popLoop recvDatagram.ackNum s.window := hmem
    rw [hf, List.mem_filter] at hmem2
    have := hmem2.2
    simp only [decide_eq_true_eq] at this
    omega
  · intro d hd hge
    show d ∈ popLoop recvDatagram.ackNum s.window
    rw [hf, List.mem_filter]
    exact ⟨hd, by simpa using hge⟩

/-- Witness of C1: the window holding datagrams 1, 2, 3 and the acknowledgement 3. -/
theorem ack_keeps_exactly_unacknowledged_witness :
    (demo 3 1).validateChecksum (ackOf 3) = true
    ∧ waiting3.s.window.Pairwise (fun x y => x.seqNum < y.seqNum)
    ∧ (waitBody (demo 3 1) { recv := some (ackOf 3), expired := false } waiting3.s).s.window
        = waiting3.s.window.filter (fun d => decide ((ackOf 3).ackNum ≤ d.seqNum)) :=
  ⟨by decide, by decide,
    (ack_keeps_exactly_unacknowledged (demo 3 1) { recv := some (ackOf 3), expired := false }
      (ackOf 3) waiting3.s rfl (by decide) (by decide)).1⟩

/-- Claim C2, the code on the failing input: a two-byte file, window size 2, one
byte per datagram, the acknowledgement 2 arriving in each wait phase. After ten
steps the outer loop has exited with `allSent` and `allAcked` set while the
window holds two entries: the data datagram 2 (carrying the byte 8), which no
acknowledgement has covered, and the end-of-file datagram 3. -/
theorem exit_with_unacknowledged_data :
    (run (demo 2 1) [7, 8] (alwaysAck 2) 10).loc = Loc.done
    ∧ (run (demo 2 1) [7, 8] (alwaysAck 2) 10).s.allSent = true
    ∧ (run (demo 2 1) [7, 8] (alwaysAck 2) 10).s.allAcked = true
    ∧ (run (demo 2 1) [7, 8] (alwaysAck 2) 10).s.window.length = 2
    ∧ (run (demo 2 1) [7, 8] (alwaysAck 2) 10).s.window.map (fun d => (d.seqNum, d.data))
        = [(2, [8]), (3, [0])] := by
  decide

/-- Claim C3. With a payload capacity of at least one byte, once the outer loop
has exited the datagrams enqueued are, in order, the `ceil (L / P)` datagrams
built at bytes `0, P, 2P, ...` of the file (each before the end of the file,
so each read something) followed by one datagram built at the end of the file,
which has `payloadLength = 0` and is the last: `ceil (L / P) + 1` datagrams in
all. The last one carries `ceil (L / P) + 1` as an `int` holds it, which is
`ceil (L / P) + 1` itself up to `INT_MAX`. For `L = 0` that is the end-of-file datagram alone, with `seqNum` 1; for
`L = P` it is one datagram holding the whole file, with `seqNum` 1, and the
end-of-file datagram, with `seqNum` 2. -/
theorem enqueued_on_exit (p : Params) (file : List Nat) (m : Machine)
    (hP : 0 < p.MAX_PAYLOAD_LENGTH) (h : Reachable p file m) (hdone : m.loc = Loc.done) :
    m.s.enqueued
        = (List.range (chunkCount file.length p.MAX_PAYLOAD_LENGTH + 1)).map (nthDatagram p file)
    ∧ m.s.enqueued.length = chunkCount file.length p.MAX_PAYLOAD_LENGTH + 1
    ∧ (∀ i, i < chunkCount file.length p.MAX_PAYLOAD_LENGTH →
        i * p.MAX_PAYLOAD_LENGTH < file.length
        ∧ atEof p (streamAt file (i * p.MAX_PAYLOAD_LENGTH)) = false)
    ∧ atEof p (streamAt file
        (chunkCount file.length p.MAX_PAYLOAD_LENGTH * p.MAX_PAYLOAD_LENGTH)) = true
    ∧ (nthDatagram p file (chunkCount file.length p.MAX_PAYLOAD_LENGTH)).payloadLength = 0
    ∧ (nthDatagram p file (chunkCount file.length p.MAX_PAYLOAD_LENGTH)).seqNum
        = wrapInt ((chunkCount file.length p.MAX_PAYLOAD_LENGTH : Int) + 1)
    ∧ (chunkCount file.length p.MAX_PAYLOAD_LENGTH + 1 ≤ 2147483647 →
        (nthDatagram p file (chunkCount file.length p.MAX_PAYLOAD_LENGTH)).seqNum
          = (chunkCount file.length p.MAX_PAYLOAD_LENGTH : Int) + 1)
    ∧ (file.length = 0 →
        m.s.enqueued = [nthDatagram p file 0]
        ∧ (nthDatagram p file 0).seqNum = 1 ∧ (nthDatagram p file 0).payloadLength = 0)
    ∧ (file.length = p.MAX_PAYLOAD_LENGTH →
        m.s.enqueued = [nthDatagram p file 0, nthDatagram p file 1]
        ∧ (nthDatagram p file 0).seqNum = 1
        ∧ (nthDatagram p file 0).data = file ++ p.fresh.data.drop file.length
        ∧ (nthDatagram p file 1).seqNum = 2 ∧ (nthDatagram p file 1).payloadLength = 0) := by
  obtain ⟨_, _, henq, _, hsent⟩ := fileInv_of_reachable p file m hP h
  obtain ⟨n, hlen, hn1, hn2⟩ := hsent (done_flags p file m h hdone).1
  have hcc : chunkCount file.length p.MAX_PAYLOAD_LENGTH = n :=
    chunkCount_eq _ _ n hP hn1 hn2
  rw [hcc]
  have hlist : m.s.enqueued = (List.range (n + 1)).map (nthDatagram p file) := by
    rw [← hlen]; exact henq
  have hseq : n + 1 ≤ 2147483647 → (nthDatagram p file n).seqNum = (n : Int) + 1 := by
    intro hle
    rw [nthDatagram_seqNum]
    exact wrapInt_of_range _ (by omega) (by omega)
  refine ⟨hlist, hlen, ?_, ?_, nthDatagram_payloadLength_eof p file n hP hn1,
    nthDatagram_seqNum p file n, hseq, ?_, ?_⟩
  · intro i hi
    have hmul : (i + 1) * p.MAX_PAYLOAD_LENGTH ≤ n * p.MAX_PAYLOAD_LENGTH :=
      Nat.mul_le_mul_right _ hi
    rw [Nat.add_mul, Nat.one_mul] at hmul
    have hlt : i * p.MAX_PAYLOAD_LENGTH < file.length := by omega
    refine ⟨hlt, ?_⟩
    rw [atEof_streamAt p file _ hP]
    simp only [decide_eq_false_iff_not]
    omega
  · rw [atEof_streamAt p file _ hP]
    simpa using hn1
  · intro h0
    have hn0 : n = 0 := by
      rw [← hcc]
      exact chunkCount_eq _ _ 0 hP (by omega) (by omega)
    subst hn0
    refine ⟨hlist, ?_, nthDatagram_payloadLength_eof p file 0 hP (by omega)⟩
    rw [nthDatagram_seqNum]; unfold wrapInt; omega
  · intro hLP
    have hn1e : n = 1 := by
      rw [← hcc]
      exact chunkCount_eq _ _ 1 hP (by omega) (by omega)
    subst hn1e
    refine ⟨hlist, ?_, ?_, ?_, nthDatagram_payloadLength_eof p file 1 hP (by omega)⟩
    · rw [nthDatagram_seqNum]; unfold wrapInt; omega
    · rw [nthDatagram_data]
      simp only [Nat.zero_mul, List.drop_zero]
      rw [List.take_of_length_le (by omega)]
    · rw [nthDatagram_seqNum]; unfold wrapInt; omega

/-- Witness of C3: the two-byte file sent with window size 3 and one byte per
datagram, the acknowledgement 3 arriving in the wait phase; the loop has
exited after seven steps. -/
theorem enqueued_on_exit_witness :
    0 < (demo 3 1).MAX_PAYLOAD_LENGTH
    ∧ Reachable (demo 3 1) [7, 8] (run (demo 3 1) [7, 8] (alwaysAck 3) 7)
    ∧ (run (demo 3 1) [7, 8] (alwaysAck 3) 7).loc = Loc.done
    ∧ (run (demo 3 1) [7, 8] (alwaysAck 3) 7).s.enqueued.length
        = chunkCount ([7, 8] : List Nat).length (demo 3 1).MAX_PAYLOAD_LENGTH + 1 :=
  ⟨by decide, reachable_run _ _ _ _, by decide,
    (enqueued_on_exit (demo 3 1) [7, 8] (run (demo 3 1) [7, 8] (alwaysAck 3) 7) (by decide)
      (reachable_run _ _ _ _) (by decide)).2.1⟩

/-- Claim C4. With a window size of at least 1, a payload capacity of at least
one byte and a channel under which every wait phase is ended by a valid
acknowledgement of all data datagrams sent so far, the loop gets past the
outer loop after finitely many steps, whatever the file. -/
theorem sender_terminates (p : Params) (file : List Nat) (env : Nat → Poll)
    (hW : 1 ≤ p.windowSize) (hP : 0 < p.MAX_PAYLOAD_LENGTH)
    (hfair : FairChannel p file env) :
    ∃ n, (run p file env n).loc = Loc.done :=
  outer_reaches_done p file env hW hP hfair (remaining (run p file env 0).s) 0 rfl
    (fun hs => absurd hs (by simp [run, initial])) (fun _ => rfl) (Nat.le_refl _)

/-- Witness of C4: the two-byte file sent with window size 3 and one byte per
datagram over the channel that acknowledges 3 at every pass. -/
theorem sender_terminates_witness :
    1 ≤ (demo 3 1).windowSize ∧ 0 < (demo 3 1).MAX_PAYLOAD_LENGTH
    ∧ FairChannel (demo 3 1) [7, 8] (alwaysAck 3)
    ∧ ∃ n, (run (demo 3 1) [7, 8] (alwaysAck 3) n).loc = Loc.done :=
  ⟨by decide, by decide, alwaysAck_fair,
    sender_terminates (demo 3 1) [7, 8] (alwaysAck 3) (by decide) (by decide) alwaysAck_fair⟩

/-- Claim C5. In every reachable state the window holds at most `windowSize`
datagrams. -/
theorem window_within_windowSize (p : Params) (file : List Nat) (m : Machine)
    (h : Reachable p file m) : m.s.window.length ≤ p.windowSize :=
  window_length_le p file m h

/-- Witness of C5: the state `waiting3`, whose window is full. -/
theorem window_within_windowSize_witness :
    Reachable (demo 3 1) [7, 8] waiting3
    ∧ waiting3.s.window.length ≤ (demo 3 1).windowSize :=
  ⟨reachable_run _ _ _ _,
    window_within_windowSize (demo 3 1) [7, 8] waiting3 (reachable_run _ _ _ _)⟩

/-- Claim C6, as the code has it. In every reachable state, for every `k` from
1 to `INT_MAX = 2147483647` the `k`-th datagram enqueued by the fill phase
carries `seqNum = k`, and while fewer than `INT_MAX` datagrams have been
enqueued `nextSeq` is their number plus one: numbering starts at 1 and goes up
by one per datagram, whatever acknowledgements and retransmissions came in
between. For every `k` the `k`-th datagram carries `k` as an `int` holds it. -/
theorem kth_enqueued_has_seqNum_k (p : Params) (file : List Nat) (m : Machine)
    (h : Reachable p file m) (k : Nat) (d : datagramS) (hk : 1 ≤ k)
    (hd : m.s.enqueued[k - 1]? = some d) :
    (k ≤ 2147483647 → d.seqNum = (k : Int))
    ∧ (m.s.enqueued.length < 2147483647 →
        m.s.nextSeq = (m.s.enqueued.length : Int) + 1)
    ∧ d.seqNum = wrapInt (k : Int)
    ∧ m.s.nextSeq = wrapInt ((m.s.enqueued.length : Int) + 1) := by
  have hnum := numbered_of_reachable p file m h
  have hd2 : d.seqNum = wrapInt (k : Int) := by
    rw [hnum.2 (k - 1) d hd]
    congr 1
    omega
  refine ⟨?_, ?_, hd2, hnum.1⟩
  · intro hle
    rw [hd2]
    exact wrapInt_of_range _ (by omega) (by omega)
  · intro hlt
    rw [hnum.1]
    exact wrapInt_of_range _ (by omega) (by omega)

/-- Witness of C6 as amended: the third datagram enqueued in `waiting3`. -/
theorem kth_enqueued_has_seqNum_k_witness :
    Reachable (demo 3 1) [7, 8] waiting3
    ∧ waiting3.s.enqueued[3 - 1]? = some (buildDatagram (demo 3 1) 3 (streamAt [7, 8] 2))
    ∧ 3 ≤ 2147483647
    ∧ (buildDatagram (demo 3 1) 3 (streamAt [7, 8] 2)).seqNum = ((3 : Nat) : Int) :=
  ⟨reachable_run _ _ _ _, by decide, by decide,
    (kth_enqueued_has_seqNum_k (demo 3 1) [7, 8] waiting3 (reachable_run _ _ _ _) 3
      (buildDatagram (demo 3 1) 3 (streamAt [7, 8] 2)) (by decide) (by decide)).1
      (by decide)⟩

/-- Counterexample to C6 as stated: a file of `2^31` bytes sent one byte per
datagram with window size 10 to a receiver that gets everything. The
`2^31`-th datagram enqueued is built when `nextSeq++` has passed `INT_MAX` and
carries `-2^31`, not `2^31`. -/
theorem seqNum_wraps_past_INT_MAX :
    ((run (demo 10 1) (List.replicate 2147483648 0) cumulativeAcks
        2791728741).s.enqueued[2147483648 - 1]?).map (fun d => d.seqNum)
      = some (-2147483648)
    ∧ (-2147483648 : Int) ≠ ((2147483648 : Nat) : Int) := by
  have hlen := long_run.1
  have hnum := numbered_of_reachable (demo 10 1) (List.replicate 2147483648 0) _
    (reachable_run (demo 10 1) (List.replicate 2147483648 0) cumulativeAcks 2791728741)
  generalize run (demo 10 1) (List.replicate 2147483648 0) cumulativeAcks
    2791728741 = m at hlen hnum
  have hlt : 2147483648 - 1 < m.s.enqueued.length := by rw [hlen]; omega
  refine ⟨?_, by omega⟩
  rw [List.getElem?_eq_getElem hlt, Option.map_some']
  congr 1
  rw [hnum.2 (2147483648 - 1) _ (List.getElem?_eq_getElem hlt)]
  unfold wrapInt
  omega

/-- Claim C7, as the code has it. A datagram that validates and whose `ackNum`
is at or below the sequence number at the front of the window leaves the
window, `nextSeq` and `allSent` as they were. It leaves `allAcked` as it was
when the window holds more than one entry; when the window holds exactly one
entry and `allSent` is true (the end-of-file datagram is all that is left),
`allAcked` is true afterwards. -/
theorem stale_ack_effect (p : Params) (poll : Poll) (recvDatagram : datagramS)
    (s : Sender) (front : datagramS) (others : List datagramS)
    (hrecv : poll.recv = some recvDatagram)
    (hvalid : p.validateChecksum recvDatagram = true)
    (hwin : s.window = front :: others)
    (hstale : recvDatagram.ackNum ≤ front.seqNum) :
    (waitBody p poll s).s.window = s.window
    ∧ (waitBody p poll s).s.nextSeq = s.nextSeq
    ∧ (waitBody p poll s).s.allSent = s.allSent
    ∧ (others ≠ [] → (waitBody p poll s).s.allAcked = s.allAcked)
    ∧ (others = [] → s.allSent = true → (waitBody p poll s).s.allAcked = true) := by
  rw [waitBody_of_valid p poll s recvDatagram hrecv hvalid]
  have hpop : popLoop recvDatagram.ackNum s.window = s.window := by
    rw [hwin]; exact popLoop_of_head_ge _ _ _ hstale
  refine ⟨hpop, rfl, rfl, ?_, ?_⟩
  · intro hne
    have hlen : 0 < others.length := List.length_pos.mpr hne
    simp only [onAck]
    rw [hpop, hwin, if_neg (by simp only [List.length_cons]; omega)]
  · intro he _
    simp only [onAck]
    rw [hpop, hwin, he, if_pos (by simp)]

/-- Witness of C7 as amended: the acknowledgement 1 on the window holding
datagrams 1, 2, 3. -/
theorem stale_ack_effect_witness :
    (demo 3 1).validateChecksum (ackOf 1) = true
    ∧ waiting3.s.window
        = buildDatagram (demo 3 1) 1 (streamAt [7, 8] 0)
          :: [buildDatagram (demo 3 1) 2 (streamAt [7, 8] 1),
              buildDatagram (demo 3 1) 3 (streamAt [7, 8] 2)]
    ∧ (ackOf 1).ackNum ≤ (buildDatagram (demo 3 1) 1 (streamAt [7, 8] 0)).seqNum
    ∧ (waitBody (demo 3 1) { recv := some (ackOf 1), expired := false } waiting3.s).s.window
        = waiting3.s.window :=
  ⟨by decide, by decide, by decide,
    (stale_ack_effect (demo 3 1) { recv := some (ackOf 1), expired := false } (ackOf 1)
      waiting3.s (buildDatagram (demo 3 1) 1 (streamAt [7, 8] 0))
      [buildDatagram (demo 3 1) 2 (streamAt [7, 8] 1),
        buildDatagram (demo 3 1) 3 (streamAt [7, 8] 2)]
      rfl (by decide) (by decide) (by decide)).1⟩

/-- Counterexample to C7 as stated: an empty file, window size 1. In the first
wait phase the window holds the end-of-file datagram, numbered 1, alone and
`allAcked` is false; the valid acknowledgement 1, which is not above the front
of the window, leaves the window alone and sets `allAcked`. -/
theorem stale_ack_changes_allAcked :
    Reachable (demo 1 1) [] waitingEof
    ∧ waitingEof.loc = Loc.waitHead
    ∧ waitingEof.s.window.map (fun d => d.seqNum) = [1]
    ∧ waitingEof.s.allSent = true
    ∧ waitingEof.s.allAcked = false
    ∧ (demo 1 1).validateChecksum (ackOf 1) = true
    ∧ (ackOf 1).ackNum ≤ 1
    ∧ (waitBody (demo 1 1) { recv := some (ackOf 1), expired := false } waitingEof.s).s.window
        = waitingEof.s.window
    ∧ (waitBody (demo 1 1) { recv := some (ackOf 1), expired := false } waitingEof.s).s.allAcked
        ≠ waitingEof.s.allAcked :=
  ⟨reachable_run _ _ _ _, by decide, by decide, by decide, by decide, by decide, by decide,
    by decide, by decide⟩

/-- Claim C8, the code on the failing input: a two-byte file read with a payload
capacity of two bytes, the declaration of a datagram leaving all fields zero.
The first datagram enqueued holds the full-size chunk 7, 8 and its
`payloadLength` is 0, not `MAX_PAYLOAD_LENGTH = 2`: the branch of a read that
succeeds never assigns the field. -/
theorem full_chunk_payloadLength_unset :
    (demo 1 2).MAX_PAYLOAD_LENGTH = 2
    ∧ (run (demo 1 2) [7, 8] quiet 2).s.enqueued.map
        (fun d => (d.seqNum, d.payloadLength, d.data)) = [(1, 0, [7, 8])]
    ∧ (buildDatagram (demo 1 2) 1 (streamAt [7, 8] 0)).payloadLength
        = (demo 1 2).fresh.payloadLength := by
  decide

/-- Claim C9. A received datagram that fails `validateChecksum` is ignored: the
pass of the wait loop that received it does exactly what a pass that received
nothing does, namely the timer check alone. The loop stays in the wait phase,
the window, `nextSeq`, `allSent` and `allAcked` keep their values whatever the
`ackNum` of the datagram, and unless the timer has expired at that pass
nothing at all changes: no call is made on the timer or on the transport. -/
theorem corrupt_datagram_ignored (p : Params) (s : Sender) (d : datagramS)
    (expired : Bool) (hbad : p.validateChecksum d = false) :
    waitBody p { recv := some d, expired := expired } s
        = waitBody p { recv := none, expired := expired } s
    ∧ (waitBody p { recv := some d, expired := expired } s).loc = Loc.waitHead
    ∧ (waitBody p { recv := some d, expired := expired } s).s = onTimer p expired s
    ∧ (waitBody p { recv := some d, expired := expired } s).s.window = s.window
    ∧ (waitBody p { recv := some d, expired := expired } s).s.nextSeq = s.nextSeq
    ∧ (waitBody p { recv := some d, expired := expired } s).s.allSent = s.allSent
    ∧ (waitBody p { recv := some d, expired := expired } s).s.allAcked = s.allAcked
    ∧ (waitBody p { recv := some d, expired := false } s).s = s := by
  have h1 : ∀ e, waitBody p { recv := some d, expired := e } s
      = { loc := Loc.waitHead, s := onTimer p e s } := by
    intro e
    simp only [waitBody, hbad]
    rfl
  refine ⟨?_, ?_, ?_, ?_, ?_, ?_, ?_, ?_⟩
  · rw [h1]; rfl
  · rw [h1]
  · rw [h1]
  · rw [h1]; exact onTimer_window p expired s
  · rw [h1]; exact onTimer_nextSeq p expired s
  · rw [h1]; exact onTimer_allSent p expired s
  · rw [h1]; exact onTimer_allAcked p expired s
  · rw [h1]; rfl

/-- Witness of C9: a datagram with checksum 5, which `demo` rejects, arriving
in the state `waiting3`. -/
theorem corrupt_datagram_ignored_witness :
    (demo 3 1).validateChecksum { ackOf 9 with checksum := 5 } = false
    ∧ (waitBody (demo 3 1) { recv := some { ackOf 9 with checksum := 5 }, expired := false }
        waiting3.s).s = waiting3.s :=
  ⟨by decide,
    (corrupt_datagram_ignored (demo 3 1) waiting3.s { ackOf 9 with checksum := 5 } false
      (by decide)).2.2.2.2.2.2.2⟩

/-- Claim C10. When the timer check of a pass of the wait loop finds the timer
expired (no valid datagram having arrived at that pass), the calls made are
`stop`, then `udt_send` on each entry of the window, once each and in window
order, then `setDuration timeoutThreshold` and `start`. The window is the tail
of the list of datagrams enqueued, so each entry is a datagram as it was
enqueued, which was sent at that time; while no sequence number has passed
`INT_MAX` it is the datagram that was enqueued under its sequence number. The
window, `nextSeq`, `allSent` and `allAcked` keep their values and the loop
stays in the wait phase. -/
theorem timer_expiry_resends_window (p : Params) (file : List Nat) (m : Machine)
    (poll : Poll) (h : Reachable p file m) (hloc : m.loc = Loc.waitHead)
    (hno : noValidDatagram p poll) (hexp : poll.expired = true) :
    (step p poll m).s.trace
        = m.s.trace ++ [Action.stop] ++ m.s.window.map Action.udt_send
            ++ [Action.setDuration p.timeoutThreshold, Action.start]
    ∧ m.s.window <:+ m.s.enqueued
    ∧ (∀ d, d ∈ m.s.window → d ∈ m.s.enqueued ∧ Action.udt_send d ∈ m.s.trace)
    ∧ (m.s.enqueued.length ≤ 2147483647 → ∀ d, d ∈ m.s.window →
        m.s.enqueued[(d.seqNum - 1).toNat]? = some d)
    ∧ (step p poll m).s.window = m.s.window
    ∧ (step p poll m).s.nextSeq = m.s.nextSeq
    ∧ (step p poll m).s.allSent = m.s.allSent
    ∧ (step p poll m).s.allAcked = m.s.allAcked
    ∧ (step p poll m).s.enqueued = m.s.enqueued
    ∧ (step p poll m).loc = Loc.waitHead := by
  have hstep : step p poll m = { loc := Loc.waitHead, s := onTimer p true m.s } := by
    obtain ⟨loc, s⟩ := m
    simp only at hloc
    subst hloc
    simp only [step]
    rw [waitBody_of_noValid p poll s hno, hexp]
  rw [hstep]
  have hsuf := window_suffix_enqueued p file m h
  refine ⟨rfl, hsuf, ?_, ?_, rfl, rfl, rfl, rfl, rfl, rfl⟩
  · intro d hd
    exact ⟨hsuf.subset hd, enqueued_sent p file m h d (hsuf.subset hd)⟩
  · intro hbound d hd
    obtain ⟨i, hi⟩ := List.mem_iff_getElem?.mp hd
    obtain ⟨h1, h2, h3, h4⟩ := window_seqNum p file m h i d hi
    have hidx : (d.seqNum - 1).toNat = m.s.enqueued.length - m.s.window.length + i := by
      rw [h1, wrapInt_of_range _ (by omega) (by omega)]
      omega
    rw [hidx]
    exact h2

/-- Witness of C10: the timer expiring in the state `waiting3`. -/
theorem timer_expiry_resends_window_witness :
    Reachable (demo 3 1) [7, 8] waiting3
    ∧ waiting3.loc = Loc.waitHead
    ∧ noValidDatagram (demo 3 1) { recv := none, expired := true }
    ∧ (step (demo 3 1) { recv := none, expired := true } waiting3).s.trace
        = waiting3.s.trace ++ [Action.stop] ++ waiting3.s.window.map Action.udt_send
            ++ [Action.setDuration (demo 3 1).timeoutThreshold, Action.start] :=
  ⟨reachable_run _ _ _ _, by decide, fun d hd => Option.noConfusion hd,
    (timer_expiry_resends_window (demo 3 1) [7, 8] waiting3 { recv := none, expired := true }
      (reachable_run _ _ _ _) (by decide) (fun d hd => Option.noConfusion hd) rfl).1⟩

/-- Claim C11, as the code has it. In every reachable state in which at most
`INT_MAX = 2147483647` datagrams have been enqueued, so that no sequence
number has passed `INT_MAX`, the sequence numbers of the window strictly
increase from front to back. In every reachable state, every step of the
loop either appends one datagram at the back of the window or leaves a suffix
of it, so a step that does not lengthen the window, and a step that shortens
it in particular, removes entries from the front only and keeps the others in
their order. -/
theorem window_increasing_front_removal (p : Params) (file : List Nat) (m : Machine)
    (h : Reachable p file m) :
    (m.s.enqueued.length ≤ 2147483647 →
      m.s.window.Pairwise (fun x y => x.seqNum < y.seqNum))
    ∧ (∀ poll, (step p poll m).s.window <:+ m.s.window
        ∨ ∃ d, (step p poll m).s.window = m.s.window ++ [d])
    ∧ (∀ poll, (step p poll m).s.window.length ≤ m.s.window.length →
        (step p poll m).s.window <:+ m.s.window)
    ∧ (∀ poll, (step p poll m).s.enqueued.length ≤ 2147483647 →
        (step p poll m).s.window.Pairwise (fun x y => x.seqNum < y.seqNum)) := by
  refine ⟨window_pairwise p file m h, fun poll => step_window p poll m, ?_, ?_⟩
  · intro poll hlen
    rcases step_window p poll m with hs | ⟨d, hd⟩
    · exact hs
    · rw [hd, List.length_append, List.length_singleton] at hlen
      omega
  · intro poll
    exact window_pairwise p file _ (reachable_step p file m poll h)

/-- Witness of C11 as amended: the state `waiting3` and the acknowledgement 3
that pops datagrams 1 and 2 from its window. -/
theorem window_increasing_front_removal_witness :
    Reachable (demo 3 1) [7, 8] waiting3
    ∧ waiting3.s.enqueued.length ≤ 2147483647
    ∧ waiting3.s.window.Pairwise (fun x y => x.seqNum < y.seqNum)
    ∧ (step (demo 3 1) { recv := some (ackOf 3), expired := false } waiting3).s.window.length
        ≤ waiting3.s.window.length
    ∧ (step (demo 3 1) { recv := some (ackOf 3), expired := false } waiting3).s.window
        <:+ waiting3.s.window :=
  ⟨reachable_run _ _ _ _, by decide,
    (window_increasing_front_removal (demo 3 1) [7, 8] waiting3
      (reachable_run _ _ _ _)).1 (by decide),
    by decide,
    (window_increasing_front_removal (demo 3 1) [7, 8] waiting3
      (reachable_run _ _ _ _)).2.2.1 { recv := some (ackOf 3), expired := false } (by decide)⟩

/-- Counterexample to C11 as stated: a file of `2^31` bytes sent one byte per
datagram with window size 10 to a receiver that gets everything. When `2^31`
datagrams have been enqueued the window holds the last eight of them, and its
last two entries carry `INT_MAX = 2147483647` and then `-2^31`: the window is
not increasing. -/
theorem window_not_increasing_past_INT_MAX :
    Reachable (demo 10 1) (List.replicate 2147483648 0)
      (run (demo 10 1) (List.replicate 2147483648 0) cumulativeAcks 2791728741)
    ∧ ¬ (run (demo 10 1) (List.replicate 2147483648 0) cumulativeAcks
          2791728741).s.window.Pairwise (fun x y => x.seqNum < y.seqNum) := by
  refine ⟨reachable_run _ _ _ _, ?_⟩
  have hlen := long_run.1
  have hwl := long_run.2
  have hseq := window_seqNum (demo 10 1) (List.replicate 2147483648 0) _
    (reachable_run (demo 10 1) (List.replicate 2147483648 0) cumulativeAcks 2791728741)
  generalize run (demo 10 1) (List.replicate 2147483648 0) cumulativeAcks
    2791728741 = m at hlen hwl hseq
  intro hp
  rw [List.pairwise_iff_getElem] at hp
  have hi : 6 < m.s.window.length := by rw [hwl]; omega
  have hj : 7 < m.s.window.length := by rw [hwl]; omega
  have hlt := hp 6 7 hi hj (by omega)
  rw [(hseq 6 _ (List.getElem?_eq_getElem hi)).1,
    (hseq 7 _ (List.getElem?_eq_getElem hj)).1, hlen, hwl] at hlt
  unfold wrapInt at hlt
  omega

/-- Claim C12. In every reachable state, each `start` in the trace of calls
comes at a point where the timer is not running: among the calls before it
there is no `start` at all, or there is a `stop` with no `start` after it. -/
theorem start_only_when_stopped (p : Params) (file : List Nat) (m : Machine)
    (h : Reachable p file m) (pre post : List Action)
    (htrace : m.s.trace = pre ++ Action.start :: post) :
    runningAfter false pre = false
    ∧ (Action.start ∉ pre ∨ ∃ a b, pre = a ++ Action.stop :: b ∧ Action.start ∉ b) := by
  have hw := (timer_invariant p file m h).1
  rw [htrace, wellTimed_append] at hw
  have hr : runningAfter false pre = false := hw.2.1
  refine ⟨hr, ?_⟩
  rcases stopped_cases false pre hr with ⟨_, hn⟩ | hex
  · exact Or.inl hn
  · exact Or.inr hex

/-- Witness of C12: the second `start` of the trace after the timer has
expired once in the state `waiting3`. -/
theorem start_only_when_stopped_witness :
    Reachable (demo 3 1) [7, 8]
      (step (demo 3 1) { recv := none, expired := true } waiting3)
    ∧ (step (demo 3 1) { recv := none, expired := true } waiting3).s.trace
        = (waiting3.s.trace ++ [Action.stop] ++ waiting3.s.window.map Action.udt_send
            ++ [Action.setDuration 1000]) ++ Action.start :: []
    ∧ runningAfter false
        (waiting3.s.trace ++ [Action.stop] ++ waiting3.s.window.map Action.udt_send
          ++ [Action.setDuration 1000]) = false :=
  ⟨reachable_step _ _ _ _ (reachable_run _ _ _ _), by decide,
    (start_only_when_stopped (demo 3 1) [7, 8]
      (step (demo 3 1) { recv := none, expired := true } waiting3)
      (reachable_step _ _ _ _ (reachable_run _ _ _ _))
      (waiting3.s.trace ++ [Action.stop] ++ waiting3.s.window.map Action.udt_send
        ++ [Action.setDuration 1000]) [] (by decide)).1⟩

/-- Claim C13. With a window size of at least 1, whenever the loop is in the
wait loop (on entering it after a fill phase and at every later pass) the
window is not empty, and it holds exactly `windowSize` entries or `allSent` is
set and it holds at least one. So a timer expiry there calls `udt_send` at
least once. -/
theorem wait_phase_window_nonempty (p : Params) (file : List Nat) (m : Machine)
    (hW : 1 ≤ p.windowSize) (h : Reachable p file m) (hloc : m.loc = Loc.waitHead) :
    m.s.window ≠ []
    ∧ (m.s.window.length = p.windowSize
        ∨ (m.s.allSent = true ∧ 1 ≤ m.s.window.length))
    ∧ (∀ poll, noValidDatagram p poll → poll.expired = true →
        (step p poll m).s.trace
            = m.s.trace ++ [Action.stop] ++ m.s.window.map Action.udt_send
                ++ [Action.setDuration p.timeoutThreshold, Action.start]
        ∧ m.s.window.map Action.udt_send ≠ []) := by
  obtain ⟨hne, hfull⟩ := (wait_invariant p file m hW h).2.2 hloc
  have hpos : 1 ≤ m.s.window.length := List.length_pos.mpr hne
  refine ⟨hne, ?_, ?_⟩
  · rcases hfull with hf | hs
    · exact Or.inl hf
    · exact Or.inr ⟨hs, hpos⟩
  · intro poll hno hexp
    rw [step_wait_expired p poll m hloc hno hexp]
    refine ⟨rfl, ?_⟩
    intro hmap
    exact hne (List.map_eq_nil_iff.mp hmap)

/-- Witness of C13: the state `waiting3`, in the wait loop with a full window. -/
theorem wait_phase_window_nonempty_witness :
    1 ≤ (demo 3 1).windowSize
    ∧ Reachable (demo 3 1) [7, 8] waiting3
    ∧ waiting3.loc = Loc.waitHead
    ∧ waiting3.s.window ≠ [] :=
  ⟨by decide, reachable_run _ _ _ _, by decide,
    (wait_phase_window_nonempty (demo 3 1) [7, 8] waiting3 (by decide)
      (reachable_run _ _ _ _) (by decide)).1⟩

end RftClient
